import Mathlib

/-!
Verification development for the embedding-based multi-label tag classifier
(`embedding-classifier.ts` and `advanced-classifier.ts`).

Modelling conventions:
 - JavaScript numbers are modelled by exact rationals (`ℚ`).  The two
   transcendental library functions the code uses, `Math.log` and `Math.sqrt`,
   are abstracted as a `FloatOps` parameter threaded through every function
   that needs them; theorems quantify over `FloatOps` (adding explicitly
   satisfiable accuracy hypotheses where a claim genuinely depends on the
   behaviour of the square root).  Concrete evaluations instantiate `FloatOps`
   with computable rational approximations (`ratOps` below).
   NaN/Infinity cannot arise in exact rational arithmetic, so the defensive
   `isFinite`/`isNaN` branches of the source are modelled as the branch the
   code takes on finite values; this is noted at each such point.
 - JavaScript objects with string keys and `Map`s are modelled as
   insertion-ordered association lists (`alGet`/`alSet` below): lookup finds
   the first matching key, updating an existing key keeps its position, and a
   new key is appended — exactly the iteration-order semantics of JS objects
   (for non-integer-like string keys) and `Map`s.
 - `Array.prototype.sort` with a numeric comparator is modelled as a stable
   sort (`stableSortByDesc`), the behaviour required by ES2019 and implemented
   by all current engines.
-/

namespace TagClassifier

/-- Abstraction of the two transcendental JS math functions used by the code:
`Math.log` (natural logarithm) and `Math.sqrt`. -/
structure FloatOps where
  log : ℚ → ℚ
  sqrt : ℚ → ℚ

abbrev Vec := List ℚ

/-! ### Insertion-ordered association lists (model of JS objects / Maps) -/

/-- Lookup of the value bound to key `k` (first match). -/
def alGet {α : Type} (m : List (String × α)) (k : String) : Option α :=
  match m.find? (fun p => p.1 == k) with
  | some p => some p.2
  | none => none

/-- Update the binding of `k` in place if present, otherwise append it:
the insertion-order semantics of assignment to a JS object property and of
`Map.prototype.set`. -/
def alSet {α : Type} (m : List (String × α)) (k : String) (v : α) :
    List (String × α) :=
  match m with
  | [] => [(k, v)]
  | p :: rest => if p.1 = k then (k, v) :: rest else p :: alSet rest k v

/-- Keys of the association list in iteration order (model of `Object.keys`). -/
def alKeys {α : Type} (m : List (String × α)) : List String :=
  m.map (·.1)

/-- Membership of a key. -/
def alHasKey {α : Type} (m : List (String × α)) (k : String) : Bool :=
  (alGet m k).isSome

/-- Deduplicate keeping the first occurrence of each element: the insertion
order of a JS `Set` built from a list. -/
def firstDedup (l : List String) : List String :=
  (l.foldl (fun acc w => if w ∈ acc then acc else acc ++ [w]) [])

/-- Stable insertion of an indexed element into a list sorted by key
descending, index ascending. -/
def insertByDesc {α : Type} (key : α → ℚ) (x : Nat × α) :
    List (Nat × α) → List (Nat × α)
  | [] => [x]
  | y :: ys =>
    if key y.2 < key x.2 ∨ (key y.2 = key x.2 ∧ x.1 < y.1) then x :: y :: ys
    else y :: insertByDesc key x ys

/-- Stable sort by a rational key, descending: the model of
`Array.prototype.sort` with the numeric comparators of the source (all of
the form higher-score-first). -/
def stableSortByDesc {α : Type} (key : α → ℚ) (l : List α) : List α :=
  ((l.enum).foldr (insertByDesc key) []).map (·.2)

/-! ### Characters: the JS character classes used by the regexes -/

/-- Characters matched by the JS regex class `\s` (ASCII part plus NBSP —
the only whitespace characters exercised by this development). -/
def isSpaceChar (c : Char) : Bool :=
  c == ' ' || c == '\t' || c == '\n' || c == '\r' || c == '\x0b' ||
    c == '\x0c' || c == ' '

/-- Characters matched by the JS regex class `\w`: `[A-Za-z0-9_]`. -/
def isWordChar (c : Char) : Bool :=
  (decide ('a' ≤ c) && decide (c ≤ 'z')) ||
    (decide ('A' ≤ c) && decide (c ≤ 'Z')) ||
    (decide ('0' ≤ c) && decide (c ≤ '9')) || c == '_'

/-- Lowercase a string character by character (model of
`String.prototype.toLowerCase` on the ASCII range). -/
def strToLower (s : String) : String :=
  ⟨s.data.map Char.toLower⟩

/-- Model of `String.prototype.trim`: drop leading and trailing whitespace. -/
def strTrim (s : String) : String :=
  ⟨((s.data.dropWhile isSpaceChar).reverse.dropWhile isSpaceChar).reverse⟩

/-- Index of the first occurrence of `pat` in `l`, if any. -/
def firstIdxOfSeq (pat : List Char) : List Char → Option Nat
  | [] => if pat = [] then some 0 else none
  | c :: rest =>
    if pat.isPrefixOf (c :: rest) then some 0
    else match firstIdxOfSeq pat rest with
      | some j => some (j + 1)
      | none => none

/-- Model of `String.prototype.includes` (substring test; the empty string
is a substring of everything). -/
def containsStr (hay sub : String) : Bool :=
  (firstIdxOfSeq sub.data hay.data).isSome

/-- Split on whitespace runs, keeping the non-empty chunks.  JS
`split(/\s+/)` can additionally produce empty-string artifacts at the
edges, but those never survive the `length >= 2` filter of `tokenize`, so
they are not modelled. -/
def splitOnSpacesGo : Nat → List Char → List String
  | _, [] => []
  | 0, _ => []
  | fuel + 1, c :: rest =>
    if isSpaceChar c then splitOnSpacesGo fuel (rest.dropWhile isSpaceChar)
    else
      ⟨c :: rest.takeWhile (fun x => !isSpaceChar x)⟩ ::
        splitOnSpacesGo fuel (rest.dropWhile (fun x => !isSpaceChar x))

/-! ### Text preprocessing (`preprocessText`), step by step

Each step models one `text.replace(...)` of the source.  Global regex
replacement scans the string left to right, never rescans emitted
replacement text, and continues after each match — which is exactly what
the recursive scanners below do.  Scanners whose recursion is not
structural take a fuel argument initialised to the length of the input,
which bounds every scan (each step consumes at least one character). -/

/-- Step 1, the replacement of the anchored lazy regex matching a leading
frontmatter block by the empty string: the regex matches `---` at the very
start followed by the shortest run of characters up to the next `---`. -/
def stripFrontmatter (l : List Char) : List Char :=
  if ("---".data).isPrefixOf l then
    match firstIdxOfSeq "---".data (l.drop 3) with
    | some j => l.drop (3 + j + 3)
    | none => l
  else l

/-- Try to match `openC` + (one-or-more if `minOne`, else zero-or-more)
characters other than `closeC` + `closeC` at the head of `l`; returns the
inner text and the rest. -/
def matchDelimited (openC closeC : Char) (minOne : Bool) (l : List Char) :
    Option (List Char × List Char) :=
  match l with
  | [] => none
  | c :: rest =>
    if c == openC then
      let inner := rest.takeWhile (fun x => x != closeC)
      let rest2 := rest.dropWhile (fun x => x != closeC)
      if minOne && inner.length == 0 then none
      else match rest2 with
        | c2 :: rest3 => if c2 == closeC then some (inner, rest3) else none
        | [] => none
    else none

/-- Match a markdown link `[text](url)` (regex `\[([^\]]+)\]\([^)]+\)`) at
the head of `l`, returning the link text and the rest. -/
def matchLink (l : List Char) : Option (List Char × List Char) :=
  match matchDelimited '[' ']' true l with
  | none => none
  | some (txt, r1) =>
    match matchDelimited '(' ')' true r1 with
    | none => none
    | some (_, r2) => some (txt, r2)

/-- Step 2, `text.replace(/\[([^\]]+)\]\([^)]+\)/g, '$1')`: replace markdown
links by their text. -/
def replaceLinksGo : Nat → List Char → List Char
  | _, [] => []
  | 0, l => l
  | fuel + 1, c :: rest =>
    match matchLink (c :: rest) with
    | some (txt, r2) => txt ++ replaceLinksGo fuel r2
    | none => c :: replaceLinksGo fuel rest

/-- Step 3, `text.replace(/!\[([^\]]*)\]\([^)]+\)/g, '')`: delete markdown
images (the alt text may be empty). -/
def removeImagesGo : Nat → List Char → List Char
  | _, [] => []
  | 0, l => l
  | fuel + 1, c :: rest =>
    if c == '!' then
      match matchDelimited '[' ']' false rest with
      | some (_, r1) =>
        match matchDelimited '(' ')' true r1 with
        | some (_, r2) => removeImagesGo fuel r2
        | none => c :: removeImagesGo fuel rest
      | none => c :: removeImagesGo fuel rest
    else c :: removeImagesGo fuel rest

/-- Step 4a, stripping fenced code blocks (lazy match up to the next
closing fence), applied globally. -/
def removeFencesGo : Nat → List Char → List Char
  | _, [] => []
  | 0, l => l
  | fuel + 1, c :: rest =>
    if ("```".data).isPrefixOf (c :: rest) then
      match firstIdxOfSeq "```".data ((c :: rest).drop 3) with
      | some j => removeFencesGo fuel ((c :: rest).drop (3 + j + 3))
      | none => c :: rest
    else c :: removeFencesGo fuel rest

/-- Step 4b, deleting inline code spans (one-or-more non-backtick characters
between backticks), applied globally. -/
def removeInlineCodeGo : Nat → List Char → List Char
  | _, [] => []
  | 0, l => l
  | fuel + 1, c :: rest =>
    match matchDelimited '`' '`' true (c :: rest) with
    | some (_, r) => removeInlineCodeGo fuel r
    | none => c :: removeInlineCodeGo fuel rest

/-- Step 5, `text.replace(/<[^>]+>/g, '')`: strip HTML tags. -/
def removeHtmlGo : Nat → List Char → List Char
  | _, [] => []
  | 0, l => l
  | fuel + 1, c :: rest =>
    match matchDelimited '<' '>' true (c :: rest) with
    | some (_, r) => removeHtmlGo fuel r
    | none => c :: removeHtmlGo fuel rest

/-- The fixed phrase-synonym dictionary of `preprocessText`, in source
order. -/
def phraseSynonyms : List (String × String) :=
  [("artificial intelligence", "ai"),
   ("machine learning", "machinelearning"),
   ("deep learning", "deeplearning"),
   ("natural language processing", "nlp"),
   ("user experience", "ux"),
   ("user interface", "ui"),
   ("search engine optimization", "seo")]

/-- Split a phrase at single spaces into its words (used to build the
whitespace-tolerant pattern of the dynamic regex). -/
def phraseWords (s : String) : List String :=
  splitOnSpacesGo s.data.length s.data

/-- Match the words of a phrase separated by one-or-more whitespace
characters (`\s+`) at the head of `l`; returns the rest after the match. -/
def matchPhraseWords : List String → List Char → Option (List Char)
  | [], l => some l
  | [w], l => if (w.data).isPrefixOf l then some (l.drop w.length) else none
  | w :: ws, l =>
    if (w.data).isPrefixOf l then
      let r := l.drop w.length
      let sp := r.takeWhile isSpaceChar
      if 0 < sp.length then matchPhraseWords ws (r.drop sp.length) else none
    else none

/-- Step 6 core: one global replacement of a word-boundary-delimited,
whitespace-tolerant phrase by its token.  The word boundary before the
match requires the previous character to not be a word character (tracked
in `prevWord`); the boundary after requires the next character to not be a
word character.  Matches are located on the original text, so `prevWord`
after a match comes from the matched phrase (whose last character is a word
character, hence `true`). -/
def replacePhraseGo (ws : List String) (tok : List Char) :
    Nat → Bool → List Char → List Char
  | _, _, [] => []
  | 0, _, l => l
  | fuel + 1, prevWord, c :: rest =>
    if prevWord then c :: replacePhraseGo ws tok fuel (isWordChar c) rest
    else
      match matchPhraseWords ws (c :: rest) with
      | some r =>
        if r.head?.elim true (fun c2 => !isWordChar c2) then
          tok ++ replacePhraseGo ws tok fuel true r
        else c :: replacePhraseGo ws tok fuel (isWordChar c) rest
      | none => c :: replacePhraseGo ws tok fuel (isWordChar c) rest

/-- Step 6: apply the phrase-synonym replacements in dictionary order. -/
def applyPhraseSynonyms (l : List Char) : List Char :=
  phraseSynonyms.foldl
    (fun acc p => replacePhraseGo (phraseWords p.1) p.2.data acc.length false acc)
    l

/-- Step 7, `text.replace(/[^\w\s]/g, ' ')`: replace every character that is
neither a word character nor whitespace by a space. -/
def replaceSpecialChars (l : List Char) : List Char :=
  l.map (fun c => if !isWordChar c && !isSpaceChar c then ' ' else c)

/-- Step 8, `text.replace(/\s+/g, ' ')`: collapse whitespace runs to one
space. -/
def collapseSpacesGo : Nat → List Char → List Char
  | _, [] => []
  | 0, l => l
  | fuel + 1, c :: rest =>
    if isSpaceChar c then
      ' ' :: collapseSpacesGo fuel (rest.dropWhile isSpaceChar)
    else c :: collapseSpacesGo fuel rest

/-- Model of `EmbeddingClassifier.preprocessText`: the full pipeline, in
source order (frontmatter, links, images, code, HTML, lowercase, phrase
synonyms, special characters, whitespace normalisation, trim). -/
def preprocessText (text : String) : String :=
  let l := text.data
  let l := stripFrontmatter l
  let l := replaceLinksGo l.length l
  let l := removeImagesGo l.length l
  let l := removeFencesGo l.length l
  let l := removeInlineCodeGo l.length l
  let l := removeHtmlGo l.length l
  let l := l.map Char.toLower
  let l := applyPhraseSynonyms l
  let l := replaceSpecialChars l
  let l := collapseSpacesGo l.length l
  strTrim ⟨l⟩

/-- Model of `EmbeddingClassifier.tokenize`: lowercase, split on whitespace,
drop tokens shorter than 2 characters. -/
def tokenize (text : String) : List String :=
  (splitOnSpacesGo (strToLower text).data.length (strToLower text).data).filter
    (fun w => decide (2 ≤ w.length))

/-! ### Hashing (`hashWord`)

JS bitwise operators coerce to signed 32-bit integers: `hash << 5` wraps the
shifted value into the range of `Int32`, and `hash & hash` re-coerces the
(exactly representable) intermediate sum.  `toInt32` is that coercion. -/

/-- Signed 32-bit wraparound coercion (`ToInt32` of the JS specification). -/
def toInt32 (n : ℤ) : ℤ :=
  let m := n % 4294967296
  if 2147483648 ≤ m then m - 4294967296 else m

/-- One step of the rolling hash:
`hash = ((hash << 5) - hash) + charCode; hash = hash & hash`. -/
def hashStep (h : ℤ) (c : Nat) : ℤ :=
  toInt32 (toInt32 (h * 32) - h + c)

/-- Model of `EmbeddingClassifier.hashWord`: rolling 32-bit hash over the
UTF-16 code units (equal to the code points for the ASCII strings used
here), followed by `Math.abs`. -/
def hashWord (w : String) : Nat :=
  (w.data.foldl (fun h c => hashStep h c.toNat) 0).natAbs

/-! ### Embedding vectors -/

/-- Left fold with a rational accumulator that is forced to constructor
form at every step.  This is extensionally `List.foldl` (proved in
`qfoldl_eq_foldl` below) but keeps kernel-reduction depth constant over the
1024-component vectors, where the plain fold would build a 1024-deep
addition chain. -/
def qfoldl {α : Type} (f : ℚ → α → ℚ) : ℚ → List α → ℚ
  | acc, [] => acc
  | acc, x :: xs =>
    let q := f acc x
    if q == q then qfoldl f q xs else qfoldl f q xs

/-- Sum of squares of a vector (the `reduce((sum, val) => sum + val * val, 0)`
idiom of the source). -/
def sumsq (v : Vec) : ℚ :=
  qfoldl (fun sum val => sum + val * val) 0 v

/-- Dot product, pairwise over the common length.  At every call site of the
source both vectors have length 1024, so the out-of-range NaN behaviour of
JS indexing never arises and is not modelled. -/
def dotp (a b : Vec) : ℚ :=
  qfoldl (fun acc p => acc + p.1 * p.2) 0 (a.zip b)

/-- Add `w` into component `i` of `v` (the `embedding[i] += w` idiom). -/
def bump (v : Vec) (i : Nat) (w : ℚ) : Vec :=
  v.set i ((v.getD i 0) + w)

/-- Spread one word across three dimensions with the three salted hashes and
the 0.5 / 0.3 / 0.2 split. -/
def embedWord (v : Vec) (word : String) (weight : ℚ) : Vec :=
  let hash1 := hashWord word
  let hash2 := hashWord (word ++ "_salt1")
  let hash3 := hashWord (word ++ "_salt2")
  bump (bump (bump v (hash1 % 1024) (weight * (1/2))) (hash2 % 1024)
    (weight * (3/10))) (hash3 % 1024) (weight * (1/5))

/-! ### Classifier state -/

/-- Model of the mutable fields of `EmbeddingClassifier`.  The decimal
constants of the source (0.6, 0.4, 0.25, …) are modelled by the exact
rationals they denote. -/
structure State where
  tagEmbeddings : List (String × Vec)
  tagDocCounts : List (String × ℚ)
  totalDocs : ℚ
  docFrequency : List (String × ℚ)
  trainingBuffer : List (String × List String)
  tagDistinctiveWords : List (String × List String)
deriving DecidableEq, Repr

/-- A freshly constructed classifier. -/
def freshState : State :=
  { tagEmbeddings := [], tagDocCounts := [], totalDocs := 0,
    docFrequency := [], trainingBuffer := [], tagDistinctiveWords := [] }

/-- The per-word body of the embedding loop of
`EmbeddingClassifier.generateEmbedding`: the common-word skip, BM25-style
saturation (`k1 = 1.5`), length normalisation against the token count
`wordsLen`, and the IDF weight.  The defensive `isFinite(weight)` check of
the source cannot fire in exact arithmetic and is modelled as the
finite-value branch. -/
def embedStep (F : FloatOps) (s : State) (wordsLen : Nat)
    (v : Vec) (p : String × Nat) : Vec :=
  let word := p.1
  let freq : ℚ := (p.2 : ℚ)
  let docFreq : ℚ := (alGet s.docFrequency word).getD 0
  if 0 < s.totalDocs ∧ 3/5 < docFreq / s.totalDocs then v
  else
    let tfSaturated := (freq * (3/2 + 1)) / (freq + 3/2)
    let tfNormalized :=
      if 0 < wordsLen then tfSaturated / (wordsLen : ℚ) else 0
    let idf :=
      if 0 < s.totalDocs ∧ 0 < docFreq then
        F.log ((s.totalDocs + 1) / docFreq) + 2
      else 2
    embedWord v word (tfNormalized * idf)

/-- Model of `EmbeddingClassifier.generateEmbedding`: hashed TF-IDF with
BM25-style saturation, the common-word skip, and optional L2
normalisation.  The defensive `isNaN` check of the source cannot fire in
exact arithmetic and is modelled as the finite-value branch; likewise the
non-finite-norm reset. -/
def generateEmbedding (F : FloatOps) (s : State) (text : String)
    (normalize : Bool) : Vec :=
  let processed := preprocessText text
  let words := tokenize processed
  let wordFreq := words.foldl
    (fun m w => alSet m w (((alGet m w).getD 0) + 1)) ([] : List (String × Nat))
  let embedding := wordFreq.foldl (embedStep F s words.length)
    (List.replicate 1024 (0 : ℚ))
  if normalize then
    let norm := F.sqrt (sumsq embedding)
    if 0 < norm then embedding.map (fun x => x / norm) else embedding
  else embedding

/-- Model of `EmbeddingClassifier.cosineSimilarity`, including the
division-guard returning 0 when either squared norm is 0. -/
def cosineSimilarity (F : FloatOps) (a b : Vec) : ℚ :=
  let dotProduct := dotp a b
  let normA := sumsq a
  let normB := sumsq b
  if normA = 0 ∨ normB = 0 then 0
  else dotProduct / (F.sqrt normA * F.sqrt normB)

/-- Model of `EmbeddingClassifier.train`: no-op on an empty tag list,
otherwise buffer the document and update the document-frequency map for its
distinct tokens. -/
def train (s : State) (text : String) (tags : List String) : State :=
  if tags.isEmpty then s
  else
    let uniqueWords := firstDedup (tokenize (preprocessText text))
    { s with
      trainingBuffer := s.trainingBuffer ++ [(text, tags)],
      totalDocs := s.totalDocs + 1,
      docFrequency := uniqueWords.foldl
        (fun m w => alSet m w (((alGet m w).getD 0) + 1)) s.docFrequency }

/-- Train a whole corpus, in order. -/
def trainMany (s : State) (docs : List (String × List String)) : State :=
  docs.foldl (fun st d => train st d.1 d.2) s

/-- Model of `EmbeddingClassifier.buildDistinctiveWords`: accumulate the
IDF of each rare token (IDF above 2.0) over the training documents of the
tag, then keep the 20 highest-scoring tokens.  Note the `|| 1` fallback of
`this.docFrequency.get(word) || 1` (a stored value of 0 is also falsy). -/
def buildDistinctiveWords (F : FloatOps) (s : State) (tag : String) :
    List String :=
  let tagWordScores := s.trainingBuffer.foldl (fun m doc =>
    if doc.2.contains tag then
      let uniqueWords := firstDedup (tokenize (preprocessText doc.1))
      uniqueWords.foldl (fun m2 word =>
        let docFreq : ℚ :=
          match alGet s.docFrequency word with
          | some v => if v = 0 then 1 else v
          | none => 1
        let idf := F.log ((s.totalDocs + 1) / docFreq)
        if 2 < idf then alSet m2 word (((alGet m2 word).getD 0) + idf)
        else m2) m
    else m) ([] : List (String × ℚ))
  ((stableSortByDesc (fun p => p.2) tagWordScores).take 20).map (·.1)

/-- The per-tag body of the accumulation loop of
`EmbeddingClassifier.finalizeTraining`: create the zero accumulator and
zero count for a first-seen tag, then add the document embedding into the
tag accumulator and bump the tag count. -/
def finalizeTagStep (embedding : Vec)
    (acc3 : List (String × Vec) × List (String × ℚ)) (tag : String) :
    List (String × Vec) × List (String × ℚ) :=
  let embs :=
    if alHasKey acc3.1 tag then acc3.1
    else alSet acc3.1 tag (List.replicate 1024 (0 : ℚ))
  let counts :=
    if alHasKey acc3.1 tag then acc3.2 else alSet acc3.2 tag 0
  let cur := (alGet embs tag).getD (List.replicate 1024 (0 : ℚ))
  (alSet embs tag (List.zipWith (fun a b => a + b) cur embedding),
   alSet counts tag (((alGet counts tag).getD 0) + 1))

/-- The per-document body of the accumulation loop of
`EmbeddingClassifier.finalizeTraining`: embed the document text (raw, not
normalised) and fold its tags through `finalizeTagStep`. -/
def finalizeDocStep (F : FloatOps) (s : State)
    (acc2 : List (String × Vec) × List (String × ℚ))
    (doc : String × List String) :
    List (String × Vec) × List (String × ℚ) :=
  let embedding := generateEmbedding F s doc.1 false
  doc.2.foldl (finalizeTagStep embedding) acc2

/-- The averaging and L2-normalisation step of
`EmbeddingClassifier.finalizeTraining`, applied to one accumulated tag
entry.  The NaN/Infinity detection after averaging and the
non-finite-norm reset cannot fire in exact arithmetic and are modelled as
the finite-value branch. -/
def finalizeNorm (F : FloatOps) (counts : List (String × ℚ))
    (p : String × Vec) : String × Vec :=
  let count := (alGet counts p.1).getD 0
  if 0 < count then
    let avg := p.2.map (fun x => x / count)
    let norm := F.sqrt (sumsq avg)
    if 0 < norm then (p.1, avg.map (fun x => x / norm)) else (p.1, avg)
  else p

/-- Model of `EmbeddingClassifier.finalizeTraining`: accumulate raw
embeddings per tag, average, L2-normalise, build the distinctive-word
cache, clear the buffer. -/
def finalizeTraining (F : FloatOps) (s : State) : State :=
  let acc := s.trainingBuffer.foldl (finalizeDocStep F s)
    (s.tagEmbeddings, s.tagDocCounts)
  let normed := acc.1.map (finalizeNorm F acc.2)
  let distinct := (alKeys normed).foldl
    (fun m tag => alSet m tag (buildDistinctiveWords F s tag))
    s.tagDistinctiveWords
  { s with
    tagEmbeddings := normed,
    tagDocCounts := acc.2,
    tagDistinctiveWords := distinct,
    trainingBuffer := [] }

/-! ### Tag normalisation and classification (base classifier) -/

/-- Remove every whitespace character, underscore and dash (the
`replace(/[\s_-]+/g, '')` of `normalizeTag`). -/
def stripSeparators (s : String) : String :=
  ⟨s.data.filter (fun c => !(isSpaceChar c || c == '_' || c == '-'))⟩

/-- The fixed tag-synonym table of `normalizeTag`, in source order. -/
def tagSynonymMap : List (String × String) :=
  [("artificialintelligence", "ai"),
   ("machinelearning", "ml"),
   ("deeplearning", "dl"),
   ("naturallanguageprocessing", "nlp"),
   ("userexperience", "ux"),
   ("userinterface", "ui"),
   ("searchengineoptimization", "seo"),
   ("javascript", "js"),
   ("typescript", "ts"),
   ("python", "py")]

/-- Model of `EmbeddingClassifier.normalizeTag`: lowercase, trim, strip
separators, then map through the synonym table. -/
def normalizeTag (tag : String) : String :=
  let normalized := stripSeparators (strTrim (strToLower tag))
  (alGet tagSynonymMap normalized).getD normalized

/-- A candidate with its similarity and overlap (the entries of the
`similarities` array). -/
structure Scored where
  tag : String
  probability : ℚ
  overlap : ℚ
deriving DecidableEq, Repr

/-- A returned suggestion. -/
structure Suggestion where
  tag : String
  probability : ℚ
deriving DecidableEq, Repr

/-- The lexical-overlap measure of the base classifier: fraction of the
distinctive words present in the document words, or 1.0 when the tag has
no cached distinctive words. -/
def wordOverlap (tagWords docWords : List String) : ℚ :=
  if 0 < tagWords.length then
    ((tagWords.filter (fun w => docWords.contains w)).length : ℚ) /
      (tagWords.length : ℚ)
  else 1

/-- Overlap of a tag against a text, as the base `classify` computes it
(distinctive-word cache versus the tokenized preprocessed text). -/
def lexOverlap (s : State) (text : String) (tag : String) : ℚ :=
  wordOverlap ((alGet s.tagDistinctiveWords tag).getD [])
    (tokenize (preprocessText text))

/-- The candidate tag set of both `classify` methods: the whitelist
restricted to known tags when a non-empty whitelist is given, otherwise
all known tags. -/
def candidateTags (emb : List (String × Vec))
    (whitelist : Option (List String)) : List String :=
  match whitelist with
  | some wl =>
    if !wl.isEmpty then wl.filter (fun t => alHasKey emb t)
    else alKeys emb
  | none => alKeys emb

/-- Model of `EmbeddingClassifier.classify`: embed the text, gather the
candidate tags (whitelist ∩ known tags when a non-empty whitelist is given),
suppress tags whose normalised form is among the normalised existing tags,
filter by the overlap-floor / two-tier similarity rule, sort by
`0.7 * overlap + 0.3 * similarity` descending (stable), and return the top
`maxResults` as (tag, similarity) pairs. -/
def baseClassify (F : FloatOps) (s : State) (text : String)
    (whitelist : Option (List String)) (minSimilarity : ℚ) (maxResults : Nat)
    (existingTags : List String) : List Suggestion :=
  if s.tagEmbeddings.isEmpty then []
  else
    let embedding := generateEmbedding F s text true
    let docWords := tokenize (preprocessText text)
    let tags := candidateTags s.tagEmbeddings whitelist
    let existingNormalized := existingTags.map normalizeTag
    let similarities := tags.foldl (fun acc tag =>
      if existingNormalized.contains (normalizeTag tag) then acc
      else
        let similarity :=
          cosineSimilarity F embedding ((alGet s.tagEmbeddings tag).getD [])
        let overlap := wordOverlap ((alGet s.tagDistinctiveWords tag).getD [])
          docWords
        let meetsOverlapThreshold := decide (2/5 ≤ overlap)
        let meetsSimilarityThreshold :=
          if 3/5 ≤ overlap then decide (minSimilarity ≤ similarity)
          else decide (minSimilarity + 1/4 ≤ similarity)
        if meetsOverlapThreshold && meetsSimilarityThreshold then
          acc ++ [{ tag := tag, probability := similarity, overlap := overlap }]
        else acc) ([] : List Scored)
    let sorted := stableSortByDesc
      (fun r => r.overlap * (7/10) + r.probability * (3/10)) similarities
    (sorted.take maxResults).map
      (fun r => { tag := r.tag, probability := r.probability })

/-- State-passing form of the base `classify`: the method reads the
classifier fields but contains no assignment to any of them, so the
translation returns the state unchanged alongside the result. -/
def baseClassifySt (F : FloatOps) (s : State) (text : String)
    (whitelist : Option (List String)) (minSimilarity : ℚ) (maxResults : Nat)
    (existingTags : List String) : List Suggestion × State :=
  (baseClassify F s text whitelist minSimilarity maxResults existingTags, s)

/-! ### Persistence (`export` / `import`) -/

/-- The snapshot shape consumed by `import`.  `totalDocs` is `none` when the
field is missing or not a number; a tag embedding is `none` when the stored
value is not an array. -/
structure SnapshotData where
  tagEmbeddings : List (String × Option Vec)
  tagDocCounts : List (String × ℚ)
  totalDocs : Option ℚ
  tagDistinctiveWords : List (String × List String)
  docFrequency : List (String × ℚ)
deriving DecidableEq, Repr

/-- Model of `EmbeddingClassifier.export`: the five persisted maps, by
reference, with `docFrequency` converted from `Map` to object (same
entries, same order). -/
def exportData (s : State) : SnapshotData :=
  { tagEmbeddings := s.tagEmbeddings.map (fun p => (p.1, some p.2)),
    tagDocCounts := s.tagDocCounts,
    totalDocs := some s.totalDocs,
    tagDistinctiveWords := s.tagDistinctiveWords,
    docFrequency := s.docFrequency }

/-- Validity of a stored embedding: an array of length exactly 1024. -/
def validEmbedding (v : Option Vec) : Bool :=
  match v with
  | some e => e.length == 1024
  | none => false

/-- Model of `EmbeddingClassifier.import`: throw on a missing payload or a
missing/non-numeric/negative `totalDocs`; restore the maps; rebuild
`docFrequency` keeping only positive numeric entries; then delete the
embedding, doc count and distinctive words of every tag whose stored
embedding is not an array of length 1024.  The source assigns the raw maps
and then deletes the offending keys while iterating a snapshot of the
entries; for the uniquely-keyed objects JS provides this equals the
filtered maps below.  The training buffer of the importing instance is not
touched. -/
def importData (d : Option SnapshotData) (s : State) : Except String State :=
  match d with
  | none => Except.error "Invalid classifier data"
  | some data =>
    match data.totalDocs with
    | none => Except.error "Invalid totalDocs in classifier data"
    | some td =>
      if td < 0 then Except.error "Invalid totalDocs in classifier data"
      else
        let restoredDocFrequency := data.docFrequency.foldl
          (fun m p => if 0 < p.2 then alSet m p.1 p.2 else m) []
        let badTags := (data.tagEmbeddings.filter
          (fun p => !validEmbedding p.2)).map (·.1)
        Except.ok
          { s with
            tagEmbeddings := data.tagEmbeddings.filterMap
              (fun p => match p.2 with
                | some e => if e.length = 1024 then some (p.1, e) else none
                | none => none),
            tagDocCounts :=
              data.tagDocCounts.filter (fun p => !badTags.contains p.1),
            totalDocs := td,
            tagDistinctiveWords :=
              data.tagDistinctiveWords.filter (fun p => !badTags.contains p.1),
            docFrequency := restoredDocFrequency }

/-! ### Advanced classifier (`AdvancedEmbeddingClassifier`)

The subclass overrides `generateEmbedding` only to add logging and
NaN-diagnostics around `super.generateEmbedding`, so its embedding function
is modelled by the same `generateEmbedding`. -/

/-- Per-tag user-feedback counters. -/
structure Feedback where
  accepted : ℚ
  rejected : ℚ
deriving DecidableEq, Repr

/-- Model of the state of `AdvancedEmbeddingClassifier`: the inherited base
fields plus the hierarchy maps and the feedback map.  (The declared but
never-populated `ngramEmbeddings`/`ngramDocCounts` fields are omitted: no
code path reads or writes them.) -/
structure AdvState where
  base : State
  tagHierarchy : List (String × List String)
  tagChildren : List (String × List String)
  userFeedback : List (String × Feedback)
deriving DecidableEq, Repr

/-- A freshly constructed advanced classifier. -/
def freshAdvState : AdvState :=
  { base := freshState, tagHierarchy := [], tagChildren := [],
    userFeedback := [] }

/-- Model of `generateNgrams`: unigrams, then contiguous bigrams, then
contiguous trigrams (`MAX_NGRAM_SIZE = 3`, so the trigram branch always
runs), joined with underscores. -/
def generateNgrams (words : List String) : List String :=
  let bigrams := (words.zip (words.drop 1)).map (fun p => p.1 ++ "_" ++ p.2)
  let trigrams := ((words.zip (words.drop 1)).zip (words.drop 2)).map
    (fun p => p.1.1 ++ "_" ++ p.1.2 ++ "_" ++ p.2)
  words ++ bigrams ++ trigrams

/-- Model of `AdvancedEmbeddingClassifier.normalizeTagLocal`: lowercase,
trim, strip separators — without the synonym table of the parent
`normalizeTag`. -/
def normalizeTagLocal (tag : String) : String :=
  stripSeparators (strTrim (strToLower tag))

/-- Lowercase and replace each underscore or dash by a space (the
hierarchy-name normalisation `replace(/[_-]/g, ' ')`). -/
def normalizeForHierarchy (t : String) : String :=
  ⟨(strToLower t).data.map (fun c => if c == '_' || c == '-' then ' ' else c)⟩

/-- The curated semantic-hierarchy table of `isSemanticChild`, in source
order. -/
def semanticHierarchies : List (String × List String) :=
  [("ai", ["artificial intelligence", "machine learning", "deep learning",
           "neural network"]),
   ("programming", ["python", "javascript", "typescript", "java", "coding",
                    "development"]),
   ("learning", ["machine learning", "deep learning",
                 "reinforcement learning"]),
   ("data", ["data science", "data analysis", "database", "dataset"]),
   ("web", ["web development", "frontend", "backend", "fullstack"]),
   ("science", ["data science", "computer science", "research"])]

/-- Model of `isSemanticChild`: some table row whose key occurs in the
parent name and one of whose entries occurs in the child name. -/
def isSemanticChild (child parent : String) : Bool :=
  semanticHierarchies.any (fun p =>
    containsStr parent p.1 && p.2.any (fun c => containsStr child c))

/-- Model of lazily-initialised `Map<string, Set<string>>` insertion:
create the entry on first use, then add the element if not present. -/
def alAddToSet (m : List (String × List String)) (k v : String) :
    List (String × List String) :=
  match alGet m k with
  | some l => alSet m k (if l.contains v then l else l ++ [v])
  | none => m ++ [(k, [v])]

/-- Lexicographic comparison of character lists (the default JS
`Array.prototype.sort()` string order, equal to code-unit order on the
ASCII strings used here). -/
def charListLt : List Char → List Char → Bool
  | [], [] => false
  | [], _ :: _ => true
  | _ :: _, [] => false
  | a :: as, b :: bs =>
    if a < b then true else if b < a then false else charListLt as bs

/-- Insertion into an ascending sorted list of strings. -/
def insertStrAsc (x : String) : List String → List String
  | [] => [x]
  | y :: ys => if charListLt x.data y.data then x :: y :: ys
               else y :: insertStrAsc x ys

/-- Sort strings ascending (model of `Object.keys(...).sort()` in
`getAllTags`). -/
def sortStrings (l : List String) : List String :=
  l.foldr insertStrAsc []

/-- The parent-detection test of `buildTagHierarchy`: the normalised parent
name is a substring of the normalised child name, or the curated semantic
table matches. -/
def hierRel (tag potentialParent : String) : Bool :=
  let normalized := normalizeForHierarchy tag
  let parentNormalized := normalizeForHierarchy potentialParent
  containsStr normalized parentNormalized ||
    isSemanticChild normalized parentNormalized

/-- Model of `buildTagHierarchy`: clear both maps, then for every ordered
pair of distinct known tags (sorted as `getAllTags` returns them) link
child to parent when `hierRel` holds. -/
def buildTagHierarchy (a : AdvState) : AdvState :=
  let allTags := sortStrings (alKeys a.base.tagEmbeddings)
  let pairs := allTags.foldl (fun acc tag =>
    allTags.foldl (fun acc2 potentialParent =>
      if tag = potentialParent then acc2
      else if hierRel tag potentialParent then
        (alAddToSet acc2.1 tag potentialParent,
         alAddToSet acc2.2 potentialParent tag)
      else acc2) acc)
    (([], []) : List (String × List String) × List (String × List String))
  { a with tagHierarchy := pairs.1, tagChildren := pairs.2 }

/-- The parent-side body of the inner loop of `buildTagHierarchy`, acting
on the hierarchy component alone (the loop body is proved equal to the
componentwise pair of `hierHStep` and `hierCStep` in
`buildTagHierarchy_split` below). -/
def hierHStep (tag : String) (h : List (String × List String))
    (p : String) : List (String × List String) :=
  if tag = p then h
  else if hierRel tag p then alAddToSet h tag p else h

/-- The child-side body of the inner loop of `buildTagHierarchy`, acting
on the children component alone. -/
def hierCStep (tag : String) (c : List (String × List String))
    (p : String) : List (String × List String) :=
  if tag = p then c
  else if hierRel tag p then alAddToSet c p tag else c

/-- The inner loop of `buildTagHierarchy` over all candidate parents,
hierarchy component. -/
def hierHFold (T : List String) (h : List (String × List String))
    (tag : String) : List (String × List String) :=
  T.foldl (hierHStep tag) h

/-- The inner loop of `buildTagHierarchy` over all candidate parents,
children component. -/
def hierCFold (T : List String) (c : List (String × List String))
    (tag : String) : List (String × List String) :=
  T.foldl (hierCStep tag) c

/-- The parents a tag is linked to by `buildTagHierarchy`: the distinct
other tags related to it by `hierRel`, in tag order. -/
def hierParents (T : List String) (tag : String) : List String :=
  T.filter (fun p => !(tag == p) && hierRel tag p)

/-- Advanced `train` (inherited from the base class). -/
def advTrain (a : AdvState) (text : String) (tags : List String) : AdvState :=
  { a with base := train a.base text tags }

/-- Train a whole corpus on the advanced classifier, in order. -/
def advTrainMany (a : AdvState) (docs : List (String × List String)) :
    AdvState :=
  docs.foldl (fun st d => advTrain st d.1 d.2) a

/-- Model of the advanced `finalizeTraining`: the inherited finalization
followed by the hierarchy rebuild. -/
def advFinalize (F : FloatOps) (a : AdvState) : AdvState :=
  buildTagHierarchy { a with base := finalizeTraining F a.base }

/-- Model of `recordFeedback`: lazily create the counter pair, then
increment the accepted or rejected count. -/
def recordFeedback (a : AdvState) (tag : String) (accepted : Bool) :
    AdvState :=
  let fb0 :=
    if alHasKey a.userFeedback tag then a.userFeedback
    else a.userFeedback ++ [(tag, { accepted := 0, rejected := 0 })]
  let feedback := (alGet fb0 tag).getD { accepted := 0, rejected := 0 }
  let feedback2 :=
    if accepted then { feedback with accepted := feedback.accepted + 1 }
    else { feedback with rejected := feedback.rejected + 1 }
  { a with userFeedback := alSet fb0 tag feedback2 }

/-- Replace the first element satisfying `p` by its image under `f` (the
mutation of the object found by `Array.prototype.find`). -/
def updateFirst {α : Type} (p : α → Bool) (f : α → α) : List α → List α
  | [] => []
  | x :: xs => if p x then f x :: xs else x :: updateFirst p f xs

/-- The per-child body of the hierarchy-enhancement loop: boost an already
suggested child by 1.2 (through the shared suggestion object), or inject a
known, non-existing child with probability 0.15. -/
def enhanceChild (a : AdvState) (existingSet : List String)
    (st2 : List Suggestion × List Suggestion) (child : String) :
    List Suggestion × List Suggestion :=
  if st2.1.any (fun r => strToLower r.tag == child) then
    (updateFirst (fun r => strToLower r.tag == child)
      (fun r => { r with probability := r.probability * (6/5) }) st2.1,
     st2.2)
  else if !existingSet.contains child then
    if alHasKey a.base.tagEmbeddings child then
      (st2.1, st2.2 ++ [{ tag := child, probability := 3/20 }])
    else st2
  else st2

/-- The per-existing-tag body of the hierarchy-enhancement loop: fold the
children of the (lowercased) existing tag through `enhanceChild`. -/
def enhanceExisting (a : AdvState) (existingSet : List String)
    (st : List Suggestion × List Suggestion) (existingTag : String) :
    List Suggestion × List Suggestion :=
  match alGet a.tagChildren (strToLower existingTag) with
  | none => st
  | some children => children.foldl (enhanceChild a existingSet) st

/-- Model of `enhanceWithHierarchy`.  `enhanced = [...results]` shares the
suggestion objects with `results`, so the 1.2 boosts applied through
`results.find` are visible in `enhanced`; injected child suggestions are
appended only to `enhanced`.  The pair carried by the fold is (current
values of the original result objects, injected suggestions). -/
def enhanceWithHierarchy (a : AdvState) (results : List Suggestion)
    (existingTags : List String) : List Suggestion :=
  let existingSet := existingTags.map strToLower
  let st := existingTags.foldl (enhanceExisting a existingSet)
    ((results, []) : List Suggestion × List Suggestion)
  stableSortByDesc (fun r => r.probability) (st.1 ++ st.2)

/-- Model of `adjustWithFeedback`: scale each suggestion by 1.3 / 0.7 / 1
according to the historical acceptance rate, once at least 3 feedback
samples exist. -/
def adjustWithFeedback (a : AdvState) (results : List Suggestion) :
    List Suggestion :=
  results.map (fun result =>
    match alGet a.userFeedback result.tag with
    | none => result
    | some feedback =>
      let total := feedback.accepted + feedback.rejected
      if total < 3 then result
      else
        let acceptanceRate := feedback.accepted / total
        let adjustment : ℚ :=
          if 7/10 < acceptanceRate then 13/10
          else if acceptanceRate < 3/10 then 7/10
          else 1
        { result with probability := result.probability * adjustment })

/-- Model of the advanced `classify`: corrupted-centroid validation (global
abort), candidate gathering as in the base class but with
`normalizeTagLocal`, the two-branch pass rule (similarity at least 0.55, or
similarity at least 0.45 with overlap at least 0.25 against the
unigram-and-n-gram token set), tier-weighted stable sorting, truncation to
`2 * maxResults`, hierarchy enhancement, feedback adjustment, truncation to
`maxResults`.  The `hasNaN`/`isNaN` parts of the corrupted check cannot
fire in exact arithmetic; the `magnitude === 0` part is modelled
exactly. -/
def advClassify (F : FloatOps) (a : AdvState) (text : String)
    (whitelist : Option (List String)) (minSimilarity : ℚ) (maxResults : Nat)
    (existingTags : List String) : List Suggestion :=
  if a.base.tagEmbeddings.isEmpty then []
  else
    let corruptedCount := (a.base.tagEmbeddings.filter
      (fun p => F.sqrt (sumsq p.2) == 0)).length
    if 0 < corruptedCount then []
    else
      let embedding := generateEmbedding F a.base text true
      let processed := preprocessText text
      let words := tokenize processed
      let ngrams := generateNgrams words
      let docTokens := words ++ ngrams
      let tags := candidateTags a.base.tagEmbeddings whitelist
      let existingNormalized := existingTags.map normalizeTagLocal
      let similarities := tags.foldl (fun acc tag =>
        if existingNormalized.contains (normalizeTagLocal tag) then acc
        else
          let similarity := cosineSimilarity F embedding
            ((alGet a.base.tagEmbeddings tag).getD [])
          let overlap := wordOverlap
            ((alGet a.base.tagDistinctiveWords tag).getD []) docTokens
          let veryHighSimilarity := decide (11/20 ≤ similarity)
          let goodMatch :=
            decide (9/20 ≤ similarity) && decide (1/4 ≤ overlap)
          if veryHighSimilarity || goodMatch then
            acc ++ [{ tag := tag, probability := similarity, overlap := overlap }]
          else acc) ([] : List Scored)
      let sorted := stableSortByDesc (fun r =>
        let w : ℚ :=
          if 3/5 ≤ r.probability then 4/5
          else if 2/5 ≤ r.probability then 3/5
          else 1/2
        r.probability * w + r.overlap * (1 - w)) similarities
      let baseResults := (sorted.take (maxResults * 2)).map
        (fun r => { tag := r.tag, probability := r.probability : Suggestion })
      let enhancedResults := enhanceWithHierarchy a baseResults existingTags
      let adjustedResults := adjustWithFeedback a enhancedResults
      adjustedResults.take maxResults

/-- State-passing form of the advanced `classify`: the method (and both
post-processing passes) reads the classifier fields but assigns none of
them, so the translation returns the state unchanged alongside the
result. -/
def advClassifySt (F : FloatOps) (a : AdvState) (text : String)
    (whitelist : Option (List String)) (minSimilarity : ℚ) (maxResults : Nat)
    (existingTags : List String) : List Suggestion × AdvState :=
  (advClassify F a text whitelist minSimilarity maxResults existingTags, a)

/-- The advanced snapshot: the base snapshot plus the optional hierarchy
and feedback maps. -/
structure AdvSnapshotData where
  base : SnapshotData
  tagHierarchy : Option (List (String × List String))
  userFeedback : Option (List (String × Feedback))
deriving DecidableEq, Repr

/-- Model of the advanced `export`: the base snapshot plus the hierarchy
(each parent set serialised in insertion order) and the feedback map. -/
def advExport (a : AdvState) : AdvSnapshotData :=
  { base := exportData a.base,
    tagHierarchy := some a.tagHierarchy,
    userFeedback := some a.userFeedback }

/-- Rebuild the child map from a serialised hierarchy, as the advanced
`import` does: for each (tag, parents) entry in order, add the tag to the
child set of each parent. -/
def rebuildChildren (hier : List (String × List String)) :
    List (String × List String) :=
  hier.foldl
    (fun (ch : List (String × List String)) (p : String × List String) =>
      p.2.foldl (fun ch2 parent => alAddToSet ch2 parent p.1) ch)
    []

/-- Model of the advanced `import`: the inherited import, then (when a
hierarchy is present) replace the hierarchy (each parent list deduplicated
through `new Set`) and rebuild the child map, and (when feedback is
present) replace the feedback map. -/
def advImport (d : Option AdvSnapshotData) (a : AdvState) :
    Except String AdvState :=
  match d with
  | none => Except.error "Invalid classifier data"
  | some data =>
    match importData (some data.base) a.base with
    | Except.error e => Except.error e
    | Except.ok s =>
      let hc :=
        match data.tagHierarchy with
        | some h =>
          (h.map (fun (p : String × List String) => (p.1, firstDedup p.2)),
           rebuildChildren h)
        | none => (a.tagHierarchy, a.tagChildren)
      let fb :=
        match data.userFeedback with
        | some f => f
        | none => a.userFeedback
      Except.ok
        { base := s, tagHierarchy := hc.1, tagChildren := hc.2,
          userFeedback := fb }

/-! ### Concrete rational stand-ins for `Math.log` and `Math.sqrt`

Counterexamples and witnesses evaluate the model at a concrete `FloatOps`.
`ratSqrt` is a scaled integer square root with relative error of the square
below `2^-26` (proved below), comfortably inside the `1e-7` accuracy the
theorems hypothesise; `ratLog` is the first Padé approximant of the natural
logarithm at 1 (positive wherever the argument exceeds 1, which is the only
property of `Math.log` any behaviour below depends on). -/

/-- Fuel-driven Newton iteration for the integer square root: a
structurally recursive (hence kernel-evaluable) copy of `Nat.sqrt.iter`,
with which it is proved to agree below. -/
def natSqrtGo (n : Nat) : Nat → Nat → Nat
  | guess, 0 => guess
  | guess, fuel + 1 =>
    let next := (guess + n / guess) / 2
    if next < guess then natSqrtGo n next fuel else guess

/-- Kernel-evaluable integer square root, equal to `Nat.sqrt`. -/
def natSqrt (n : Nat) : Nat :=
  if n ≤ 1 then n else natSqrtGo n (n / 2) (n / 2)

/-- Rational approximation of `Math.sqrt`: scaled integer square root with
2^27 subunit resolution (the literals are 2^54 and 2^27). -/
def ratSqrt (q : ℚ) : ℚ :=
  if q ≤ 0 then 0
  else (natSqrt (q.num.toNat * q.den * 18014398509481984) : ℚ) /
    ((q.den * 134217728 : ℕ) : ℚ)

/-- Rational approximation of `Math.log` (first Padé approximant at 1). -/
def ratLog (q : ℚ) : ℚ :=
  2 * (q - 1) / (q + 1)

/-- The concrete operations used to evaluate the model. -/
def ratOps : FloatOps :=
  { log := ratLog, sqrt := ratSqrt }

/-! ### Concrete scenario states used by counterexamples and witnesses -/

/-- Advanced classifier trained on two one-tag documents, with three
accepted feedback events recorded for `ztag`. -/
def fbState : AdvState :=
  recordFeedback (recordFeedback (recordFeedback
    (advFinalize ratOps (advTrainMany freshAdvState
      [("zebra quartz", ["ztag"]), ("stone mill", ["wtag"])]))
    "ztag" true) "ztag" true) "ztag" true

/-- Advanced classifier trained on the tags `python` and `python-django`
(the latter a hierarchy child of the former by the substring rule). -/
def wlState : AdvState :=
  advFinalize ratOps (advTrainMany freshAdvState
    [("zebra", ["python"]), ("quartz", ["python-django"])])

/-- Advanced classifier trained with the tag `artificial-intelligence`
(plus a decoy tag so that the training words are not skipped as
too common). -/
def synState : AdvState :=
  advFinalize ratOps (advTrainMany freshAdvState
    [("zebra quartz", ["artificial-intelligence"]), ("stone mill", ["rocktag"])])

/-- A base-classifier state holding one tag whose centroid is the zero
vector (as a corrupted import would produce). -/
def zeroCentroidState : State :=
  { freshState with tagEmbeddings := [("bad", List.replicate 1024 0)] }

/-- The advanced classifier over the same zero-magnitude centroid. -/
def zeroCentroidAdvState : AdvState :=
  { freshAdvState with base := zeroCentroidState }

/-- A snapshot mixing valid data, a wrong-length embedding (`bad`), a
non-array embedding (`ugly`), and a non-positive document frequency. -/
def mixedSnapshot : SnapshotData :=
  { tagEmbeddings :=
      [("good", some (List.replicate 1024 0)), ("bad", some [1]),
       ("ugly", none)],
    tagDocCounts := [("good", 3), ("bad", 2), ("other", 5)],
    totalDocs := some 7,
    tagDistinctiveWords := [("bad", ["x"]), ("good", ["y"])],
    docFrequency := [("wv", 2), ("uv", 0)] }

/-- Invariant of the accumulator pair of `finalizeTraining`: every
accumulated tag embedding has 1024 components, and every accumulated tag
has a document count of at least 1. -/
def centroidAccInv (A : List (String × Vec) × List (String × ℚ)) : Prop :=
  (∀ p ∈ A.1, (p : String × Vec).2.length = 1024) ∧
  (∀ p ∈ A.1, ∃ cnt : ℚ, alGet A.2 (p : String × Vec).1 = some cnt ∧ 1 ≤ cnt)

/-! ## Lemmas: folds, sorting, vector algebra -/

theorem qfoldl_eq_foldl {α : Type} (f : ℚ → α → ℚ) (l : List α) :
    ∀ acc : ℚ, qfoldl f acc l = l.foldl f acc := by
  induction l with
  | nil => intro acc; rfl
  | cons x xs ih =>
    intro acc
    simp only [qfoldl, List.foldl, ite_self]
    exact ih _

theorem mem_foldl_step_sub {α β : Type} (step : List β → α → List β)
    (P : β → Prop) (l0 : List α)
    (h : ∀ acc t x, t ∈ l0 → x ∈ step acc t → x ∈ acc ∨ P x) :
    ∀ (l : List α), (∀ t ∈ l, t ∈ l0) → ∀ (acc : List β) (x : β),
      x ∈ l.foldl step acc → x ∈ acc ∨ P x := by
  intro l
  induction l with
  | nil => intro _ acc x hx; exact Or.inl hx
  | cons t ts ih =>
    intro hsub acc x hx
    rcases ih (fun u hu => hsub u (List.mem_cons_of_mem t hu)) (step acc t) x
        hx with h1 | h1
    · exact h acc t x (hsub t (List.mem_cons_self t ts)) h1
    · exact Or.inr h1

theorem mem_foldl_step {α β : Type} (step : List β → α → List β) (P : β → Prop)
    (l : List α) (h : ∀ acc t x, t ∈ l → x ∈ step acc t → x ∈ acc ∨ P x) :
    ∀ (acc : List β) (x : β), x ∈ l.foldl step acc → x ∈ acc ∨ P x :=
  mem_foldl_step_sub step P l h l (fun _ ht => ht)

theorem mem_insertByDesc {α : Type} (key : α → ℚ) (x y : Nat × α) :
    ∀ l : List (Nat × α), y ∈ insertByDesc key x l → y = x ∨ y ∈ l := by
  intro l
  induction l with
  | nil => intro h; simpa [insertByDesc] using h
  | cons z zs ih =>
    simp only [insertByDesc]
    split
    · intro h
      rcases List.mem_cons.mp h with h1 | h1
      · exact Or.inl h1
      · exact Or.inr h1
    · intro h
      rcases List.mem_cons.mp h with h1 | h1
      · exact Or.inr (h1 ▸ List.mem_cons_self z zs)
      · rcases ih h1 with h2 | h2
        · exact Or.inl h2
        · exact Or.inr (List.mem_cons_of_mem z h2)

theorem mem_foldr_insertByDesc {α : Type} (key : α → ℚ) (y : Nat × α) :
    ∀ l : List (Nat × α), y ∈ l.foldr (insertByDesc key) [] → y ∈ l := by
  intro l
  induction l with
  | nil => intro h; simpa using h
  | cons z zs ih =>
    intro h
    rcases mem_insertByDesc key z y _ h with h1 | h1
    · exact h1 ▸ List.mem_cons_self z zs
    · exact List.mem_cons_of_mem z (ih h1)

theorem mem_enumFrom_snd {α : Type} (y : Nat × α) :
    ∀ (l : List α) (n : Nat), y ∈ l.enumFrom n → y.2 ∈ l := by
  intro l
  induction l with
  | nil => intro n h; simpa using h
  | cons z zs ih =>
    intro n h
    rcases List.mem_cons.mp h with h1 | h1
    · simp [h1]
    · exact List.mem_cons_of_mem z (ih (n + 1) h1)

theorem mem_stableSortByDesc {α : Type} (key : α → ℚ) (l : List α) (y : α) :
    y ∈ stableSortByDesc key l → y ∈ l := by
  intro h
  simp only [stableSortByDesc, List.mem_map] at h
  rcases h with ⟨p, hp, hpy⟩
  have := mem_foldr_insertByDesc key p _ hp
  exact hpy ▸ mem_enumFrom_snd p l 0 this

theorem foldl_qadd_init {α : Type} (g : α → ℚ) (l : List α) :
    ∀ a : ℚ, l.foldl (fun acc x => acc + g x) a =
      a + l.foldl (fun acc x => acc + g x) 0 := by
  induction l with
  | nil => intro a; simp
  | cons x xs ih =>
    intro a
    simp only [List.foldl]
    rw [ih (a + g x), ih (0 + g x)]
    ring

theorem sumsq_eq_foldl (v : Vec) :
    sumsq v = v.foldl (fun sum val => sum + val * val) 0 :=
  qfoldl_eq_foldl _ v 0

theorem sumsq_nil : sumsq [] = 0 := rfl

theorem sumsq_cons (x : ℚ) (v : Vec) : sumsq (x :: v) = x * x + sumsq v := by
  rw [sumsq_eq_foldl, sumsq_eq_foldl]
  simp only [List.foldl]
  rw [foldl_qadd_init (fun t => t * t) v (0 + x * x)]
  ring

theorem dotp_eq_foldl (a b : Vec) :
    dotp a b = (a.zip b).foldl (fun acc p => acc + p.1 * p.2) 0 :=
  qfoldl_eq_foldl _ _ 0

theorem dotp_cons (x y : ℚ) (xs ys : Vec) :
    dotp (x :: xs) (y :: ys) = x * y + dotp xs ys := by
  rw [dotp_eq_foldl, dotp_eq_foldl]
  have h : (x :: xs).zip (y :: ys) = (x, y) :: xs.zip ys := rfl
  rw [h]
  simp only [List.foldl]
  rw [foldl_qadd_init (fun p => p.1 * p.2) (xs.zip ys) (0 + x * y)]
  ring

theorem sumsq_nonneg (v : Vec) : 0 ≤ sumsq v := by
  induction v with
  | nil => simp [sumsq_nil]
  | cons x xs ih => rw [sumsq_cons]; nlinarith [sq_nonneg x]

theorem eq_zero_of_sumsq_eq_zero (v : Vec) (h : sumsq v = 0) :
    ∀ x ∈ v, x = 0 := by
  induction v with
  | nil => simp
  | cons y ys ih =>
    rw [sumsq_cons] at h
    have h1 : 0 ≤ y * y := mul_self_nonneg y
    have h2 : 0 ≤ sumsq ys := sumsq_nonneg ys
    have hy : y * y = 0 := by linarith
    have hys : sumsq ys = 0 := by linarith
    intro x hx
    rcases List.mem_cons.mp hx with h3 | h3
    · subst h3; exact mul_self_eq_zero.mp hy
    · exact ih hys x h3

theorem sumsq_replicate_zero (n : Nat) : sumsq (List.replicate n (0 : ℚ)) = 0 := by
  induction n with
  | zero => rfl
  | succ m ih => rw [List.replicate_succ, sumsq_cons]; rw [ih]; ring

theorem sumsq_map_div (v : Vec) (c : ℚ) (hc : c ≠ 0) :
    sumsq (v.map (fun x => x / c)) = sumsq v / (c * c) := by
  induction v with
  | nil => simp [sumsq_nil]
  | cons x xs ih =>
    simp only [List.map_cons]
    rw [sumsq_cons, sumsq_cons, ih]
    field_simp

theorem dotp_self (v : Vec) : dotp v v = sumsq v := by
  induction v with
  | nil => rfl
  | cons x xs ih => rw [dotp_cons, sumsq_cons, ih]

theorem dotp_sq_le (a : Vec) : ∀ b : Vec, (dotp a b) ^ 2 ≤ sumsq a * sumsq b := by
  induction a with
  | nil =>
    intro b
    have h : dotp [] b = 0 := rfl
    rw [h, sumsq_nil]
    simp [mul_nonneg, sumsq_nonneg b]
  | cons x xs ih =>
    intro b
    cases b with
    | nil =>
      have h : dotp (x :: xs) [] = 0 := rfl
      rw [h, sumsq_nil]
      simp
    | cons y ys =>
      rw [dotp_cons, sumsq_cons, sumsq_cons]
      have hD := ih ys
      have hA := sumsq_nonneg xs
      have hB := sumsq_nonneg ys
      rcases eq_or_lt_of_le hA with hA0 | hApos
      · have hD2 : dotp xs ys ^ 2 ≤ 0 := by
          calc dotp xs ys ^ 2 ≤ sumsq xs * sumsq ys := hD
            _ = 0 := by rw [← hA0]; ring
        have hDsq : dotp xs ys ^ 2 = 0 := le_antisymm hD2 (sq_nonneg _)
        have hD0 : dotp xs ys = 0 :=
          (pow_eq_zero_iff (two_ne_zero)).mp hDsq
        rw [hD0, ← hA0]
        nlinarith [mul_nonneg (mul_self_nonneg x) hB]
      · nlinarith [sq_nonneg (x * dotp xs ys - y * sumsq xs), hD, hApos, hB,
          mul_nonneg hA hB]

/-! ## Lemmas: the rational square-root approximation -/

theorem natSqrtGo_eq_iter (n : Nat) :
    ∀ (fuel guess : Nat), guess ≤ fuel →
      natSqrtGo n guess fuel = Nat.sqrt.iter n guess := by
  intro fuel
  induction fuel with
  | zero =>
    intro guess h
    have hg : guess = 0 := Nat.le_zero.mp h
    subst hg
    rw [Nat.sqrt.iter]
    simp [natSqrtGo]
  | succ f ih =>
    intro guess h
    rw [Nat.sqrt.iter]
    simp only [natSqrtGo]
    by_cases hlt : (guess + n / guess) / 2 < guess
    · rw [if_pos hlt, dif_pos hlt]
      exact ih _ (by omega)
    · rw [if_neg hlt, dif_neg hlt]

theorem natSqrt_eq (n : Nat) : natSqrt n = Nat.sqrt n := by
  rw [natSqrt, Nat.sqrt]
  by_cases h : n ≤ 1
  · rw [if_pos h, if_pos h]
  · rw [if_neg h, if_neg h]
    exact natSqrtGo_eq_iter n (n / 2) (n / 2) le_rfl

theorem ratSqrt_zero : ratSqrt 0 = 0 := by
  rw [ratSqrt, if_pos le_rfl]

theorem ratSqrt_pos {q : ℚ} (hq : 0 < q) : 0 < ratSqrt q := by
  rw [ratSqrt, if_neg (not_le.mpr hq)]
  apply div_pos
  · have hnum : 0 < q.num := Rat.num_pos.mpr hq
    have hp : 0 < q.num.toNat := by omega
    have hd : 0 < q.den := q.pos
    have hN : 0 < q.num.toNat * q.den * 18014398509481984 :=
      Nat.mul_pos (Nat.mul_pos hp hd) (by norm_num)
    rw [natSqrt_eq]
    exact_mod_cast Nat.sqrt_pos.mpr hN
  · have hd : 0 < q.den := q.pos
    have : 0 < q.den * 134217728 := Nat.mul_pos hd (by norm_num)
    exact_mod_cast this

theorem ratSqrt_sq_close {q : ℚ} (hq : 0 < q) :
    |ratSqrt q * ratSqrt q - q| ≤ q / 10000000 := by
  have hnum : 0 < q.num := Rat.num_pos.mpr hq
  have hdpos : 0 < q.den := q.pos
  rw [ratSqrt, if_neg (not_le.mpr hq)]
  set p : ℕ := q.num.toNat with hpdef
  set d : ℕ := q.den with hddef
  set N : ℕ := p * d * 18014398509481984 with hNdef
  set s : ℕ := natSqrt N with hsdef
  have hp : 0 < p := by omega
  have hsq : s = Nat.sqrt N := natSqrt_eq N
  have h1 : s * s ≤ N := by rw [hsq]; exact Nat.sqrt_le N
  have h2 : N ≤ s * s + 2 * s := by
    have hlt := Nat.lt_succ_sqrt N
    rw [← hsq] at hlt
    have hexp : s.succ * s.succ = s * s + 2 * s + 1 := by
      rw [Nat.succ_eq_add_one]; ring
    omega
  have h3 : 134217728 ≤ s := by
    rw [hsq]
    have hle : 134217728 * 134217728 ≤ N := by
      have hone : 1 * 1 * 18014398509481984 ≤ N :=
        Nat.mul_le_mul (Nat.mul_le_mul hp hdpos) le_rfl
      omega
    have hmono := Nat.sqrt_le_sqrt hle
    rwa [show (134217728 * 134217728 : ℕ) = 134217728 ^ 2 by ring,
      Nat.sqrt_eq'] at hmono
  have h4 : 20000000 * (2 * s) ≤ N := by
    have hss : 40000000 * s ≤ s * s := Nat.mul_le_mul_right s (by omega)
    omega
  -- pass to the rationals
  have hpq : ((p : ℕ) : ℚ) = (q.num : ℚ) := by
    have h := Int.toNat_of_nonneg (le_of_lt hnum)
    rw [hpdef]
    exact_mod_cast congrArg (fun z : ℤ => (z : ℚ)) h
  have hqnd : q * ((d : ℚ)) = (q.num : ℚ) := by
    rw [hddef]
    have hden0 : ((q.den : ℕ) : ℚ) ≠ 0 := Nat.cast_ne_zero.mpr q.den_ne_zero
    calc q * ((q.den : ℕ) : ℚ)
        = ((q.num : ℚ) / ((q.den : ℕ) : ℚ)) * ((q.den : ℕ) : ℚ) := by
          rw [Rat.num_div_den]
      _ = (q.num : ℚ) := div_mul_cancel₀ _ hden0
  have hq_eq : q * ((d : ℚ) * d * 18014398509481984) = (N : ℚ) := by
    have hcast : (N : ℚ) = (p : ℚ) * d * 18014398509481984 := by
      rw [hNdef]; push_cast; ring
    rw [hcast, hpq, ← hqnd]; ring
  have hD : (0 : ℚ) < ((d * 134217728 : ℕ) : ℚ) := by
    have hngt : 0 < d * 134217728 := Nat.mul_pos hdpos (by norm_num)
    exact_mod_cast hngt
  have hDD : ((d * 134217728 : ℕ) : ℚ) * ((d * 134217728 : ℕ) : ℚ) =
      (d : ℚ) * d * 18014398509481984 := by
    push_cast
    ring
  rw [abs_sub_le_iff]
  constructor
  · -- the approximation from below
    have hfrac : (s : ℚ) / ((d * 134217728 : ℕ) : ℚ) *
        ((s : ℚ) / ((d * 134217728 : ℕ) : ℚ)) ≤ q := by
      rw [div_mul_div_comm]
      rw [div_le_iff (by positivity)]
      rw [hDD]
      have hss : ((s : ℚ) * s) ≤ (N : ℚ) := by exact_mod_cast h1
      calc (s : ℚ) * s ≤ (N : ℚ) := hss
        _ = q * ((d : ℚ) * d * 18014398509481984) := hq_eq.symm
    have hq7 : 0 ≤ q / 10000000 := by positivity
    linarith
  · -- the approximation from above
    rw [div_mul_div_comm]
    rw [sub_le_iff_le_add]
    rw [div_add_div _ _ (by norm_num : (10000000 : ℚ) ≠ 0)
      (by positivity : ((d * 134217728 : ℕ) : ℚ) * ((d * 134217728 : ℕ) : ℚ) ≠ 0)]
    rw [le_div_iff (by positivity)]
    rw [hDD]
    have hNs : (N : ℚ) ≤ (s : ℚ) * s + 2 * s := by exact_mod_cast h2
    have h2s : 20000000 * (2 * (s : ℚ)) ≤ (N : ℚ) := by exact_mod_cast h4
    nlinarith [hq_eq, hNs, h2s]

set_option maxRecDepth 1000000 in
attribute [local semireducible] Rat.add Rat.mul Rat.inv Rat.sub Rat.ofScientific in
/-- Concrete evaluation: the base classifier, on a state holding a
zero-magnitude centroid, still returns a non-empty suggestion list (it has
no corrupted-collection abort). -/
theorem zeroCentroid_base_nonempty :
    baseClassify ratOps zeroCentroidState "xx" none 0 5 [] ≠ [] := by decide

/-- Upper bound for the modelled cosine similarity: with a square root of
relative square-accuracy 1e-7 the value cannot exceed 1 + 1e-6 (the exact
real-valued similarity is bounded by 1 via Cauchy-Schwarz; the slack
accounts for the approximate square root). -/
theorem cosineSimilarity_le_bound (F : FloatOps)
    (hsqpos : ∀ x : ℚ, 0 < x → 0 < F.sqrt x)
    (hsqacc : ∀ x : ℚ, 0 < x → |F.sqrt x * F.sqrt x - x| ≤ x / 10000000)
    (a b : Vec) : cosineSimilarity F a b ≤ 1 + 1/1000000 := by
  rw [cosineSimilarity]
  split
  · norm_num
  · next h =>
    push_neg at h
    obtain ⟨hA0, hB0⟩ := h
    have hA : 0 < sumsq a := lt_of_le_of_ne (sumsq_nonneg a) (Ne.symm hA0)
    have hB : 0 < sumsq b := lt_of_le_of_ne (sumsq_nonneg b) (Ne.symm hB0)
    have hsa := hsqpos _ hA
    have hsb := hsqpos _ hB
    have haA := abs_le.mp (hsqacc _ hA)
    have haB := abs_le.mp (hsqacc _ hB)
    have hA2 : sumsq a ≤
        F.sqrt (sumsq a) * F.sqrt (sumsq a) * (10000000/9999999) := by
      nlinarith [haA.1]
    have hB2 : sumsq b ≤
        F.sqrt (sumsq b) * F.sqrt (sumsq b) * (10000000/9999999) := by
      nlinarith [haB.1]
    have hCS := dotp_sq_le a b
    have hD2 : (dotp a b) ^ 2 ≤
        (F.sqrt (sumsq a) * F.sqrt (sumsq b) * (10000000/9999999)) ^ 2 := by
      have hstep : sumsq a * sumsq b ≤
          (F.sqrt (sumsq a) * F.sqrt (sumsq a) * (10000000/9999999)) *
          (F.sqrt (sumsq b) * F.sqrt (sumsq b) * (10000000/9999999)) := by
        apply mul_le_mul hA2 hB2 (le_of_lt hB)
        positivity
      calc (dotp a b) ^ 2 ≤ sumsq a * sumsq b := hCS
        _ ≤ (F.sqrt (sumsq a) * F.sqrt (sumsq a) * (10000000/9999999)) *
            (F.sqrt (sumsq b) * F.sqrt (sumsq b) * (10000000/9999999)) := hstep
        _ = (F.sqrt (sumsq a) * F.sqrt (sumsq b) * (10000000/9999999)) ^ 2 := by
            ring
    have hmpos : 0 < F.sqrt (sumsq a) * F.sqrt (sumsq b) * (10000000/9999999) := by
      positivity
    have hDle : dotp a b ≤
        F.sqrt (sumsq a) * F.sqrt (sumsq b) * (10000000/9999999) := by
      nlinarith [hD2, hmpos]
    rw [div_le_iff (mul_pos hsa hsb)]
    calc dotp a b
        ≤ F.sqrt (sumsq a) * F.sqrt (sumsq b) * (10000000/9999999) := hDle
      _ ≤ (1 + 1/1000000) * (F.sqrt (sumsq a) * F.sqrt (sumsq b)) := by
          nlinarith [mul_pos hsa hsb]

/-! ## Lemmas: association lists, length preservation, the centroid
invariant of `finalizeTraining` -/

theorem alGet_nil {α : Type} (k : String) :
    alGet ([] : List (String × α)) k = none := rfl

theorem alGet_cons {α : Type} (p : String × α) (m : List (String × α))
    (k : String) :
    alGet (p :: m) k = if p.1 = k then some p.2 else alGet m k := by
  by_cases h : p.1 = k
  · rw [if_pos h, alGet, List.find?_cons_of_pos _ (by simpa using h)]
  · rw [if_neg h, alGet, List.find?_cons_of_neg _ (by simpa using h), alGet]

theorem alGet_alSet_self {α : Type} (m : List (String × α)) (k : String)
    (v : α) : alGet (alSet m k v) k = some v := by
  induction m with
  | nil => rw [alSet, alGet_cons, if_pos rfl]
  | cons p rest ih =>
    rw [alSet]
    by_cases h : p.1 = k
    · rw [if_pos h, alGet_cons, if_pos rfl]
    · rw [if_neg h, alGet_cons, if_neg h]
      exact ih

theorem alGet_alSet_ne {α : Type} (m : List (String × α)) (k k2 : String)
    (v : α) (h : k2 ≠ k) : alGet (alSet m k v) k2 = alGet m k2 := by
  induction m with
  | nil =>
    rw [alSet, alGet_cons, if_neg (fun hh => h hh.symm)]
  | cons p rest ih =>
    rw [alSet]
    by_cases hp : p.1 = k
    · have hp2 : p.1 ≠ k2 := by rw [hp]; exact fun hh => h hh.symm
      rw [if_pos hp, alGet_cons, alGet_cons,
        if_neg (fun hh => h hh.symm), if_neg hp2]
    · rw [if_neg hp, alGet_cons, alGet_cons]
      by_cases h2 : p.1 = k2
      · rw [if_pos h2, if_pos h2]
      · rw [if_neg h2, if_neg h2]
        exact ih

theorem mem_alSet {α : Type} (m : List (String × α)) (k : String) (v : α) :
    ∀ p ∈ alSet m k v, p = (k, v) ∨ p ∈ m := by
  induction m with
  | nil =>
    intro p hp
    exact Or.inl (List.mem_singleton.mp hp)
  | cons q rest ih =>
    intro p hp
    rw [alSet] at hp
    by_cases h : q.1 = k
    · rw [if_pos h] at hp
      rcases List.mem_cons.mp hp with h1 | h1
      · exact Or.inl h1
      · exact Or.inr (List.mem_cons_of_mem q h1)
    · rw [if_neg h] at hp
      rcases List.mem_cons.mp hp with h1 | h1
      · exact Or.inr (h1 ▸ List.mem_cons_self q rest)
      · rcases ih p h1 with h2 | h2
        · exact Or.inl h2
        · exact Or.inr (List.mem_cons_of_mem q h2)

theorem alGet_mem {α : Type} (m : List (String × α)) (k : String) (v : α)
    (h : alGet m k = some v) : (k, v) ∈ m := by
  induction m with
  | nil => exact absurd h (by rw [alGet_nil]; exact Option.noConfusion)
  | cons p rest ih =>
    rw [alGet_cons] at h
    by_cases hq : p.1 = k
    · rw [if_pos hq] at h
      have hv : p.2 = v := Option.some.inj h
      have hpv : (k, v) = p := by rw [← hq, ← hv]
      exact hpv ▸ List.mem_cons_self p rest
    · rw [if_neg hq] at h
      exact List.mem_cons_of_mem p (ih h)

theorem alHasKey_iff {α : Type} (m : List (String × α)) (k : String) :
    alHasKey m k = true ↔ ∃ v, alGet m k = some v := by
  rw [alHasKey, Option.isSome_iff_exists]

theorem foldl_preserves {α β : Type} (P : β → Prop) (step : β → α → β)
    (h : ∀ acc a, P acc → P (step acc a)) :
    ∀ (l : List α) (acc : β), P acc → P (l.foldl step acc) := by
  intro l
  induction l with
  | nil => intro acc hacc; exact hacc
  | cons x xs ih =>
    intro acc hacc
    exact ih _ (h acc x hacc)

theorem bump_length (v : Vec) (i : Nat) (w : ℚ) :
    (bump v i w).length = v.length := by
  rw [bump, List.length_set]

theorem embedWord_length (v : Vec) (w : String) (wt : ℚ) :
    (embedWord v w wt).length = v.length := by
  simp only [embedWord]
  rw [bump_length, bump_length, bump_length]

theorem embedStep_length (F : FloatOps) (s : State) (wl : Nat) (v : Vec)
    (p : String × Nat) : (embedStep F s wl v p).length = v.length := by
  simp only [embedStep]
  split
  · rfl
  · rw [embedWord_length]

theorem generateEmbedding_length (F : FloatOps) (s : State) (text : String)
    (nm : Bool) : (generateEmbedding F s text nm).length = 1024 := by
  have key : ∀ (wf : List (String × Nat)) (wl : Nat),
      (wf.foldl (embedStep F s wl) (List.replicate 1024 (0 : ℚ))).length =
        1024 := by
    intro wf wl
    refine foldl_preserves (fun v : Vec => v.length = 1024) _ ?_ wf _ ?_
    · intro acc a hacc
      rw [embedStep_length]
      exact hacc
    · show (List.replicate 1024 (0:ℚ)).length = 1024
      rw [List.length_replicate]
  simp only [generateEmbedding]
  split
  · split
    · rw [List.length_map]
      exact key _ _
    · exact key _ _
  · exact key _ _

theorem train_tagEmbeddings (s : State) (t : String) (tags : List String) :
    (train s t tags).tagEmbeddings = s.tagEmbeddings := by
  rw [train]
  split
  · rfl
  · rfl

theorem train_tagDocCounts (s : State) (t : String) (tags : List String) :
    (train s t tags).tagDocCounts = s.tagDocCounts := by
  rw [train]
  split
  · rfl
  · rfl

theorem trainMany_tagEmbeddings (docs : List (String × List String)) :
    ∀ s : State, (trainMany s docs).tagEmbeddings = s.tagEmbeddings := by
  induction docs with
  | nil => intro s; rfl
  | cons d ds ih =>
    intro s
    rw [trainMany, List.foldl_cons]
    have h := ih (train s d.1 d.2)
    rw [trainMany] at h
    rw [h, train_tagEmbeddings]

theorem trainMany_tagDocCounts (docs : List (String × List String)) :
    ∀ s : State, (trainMany s docs).tagDocCounts = s.tagDocCounts := by
  induction docs with
  | nil => intro s; rfl
  | cons d ds ih =>
    intro s
    rw [trainMany, List.foldl_cons]
    have h := ih (train s d.1 d.2)
    rw [trainMany] at h
    rw [h, train_tagDocCounts]

theorem finalizeTagStep_inv (embedding : Vec) (he : embedding.length = 1024)
    (A : List (String × Vec) × List (String × ℚ)) (tag : String)
    (hA : centroidAccInv A) :
    centroidAccInv (finalizeTagStep embedding A tag) := by
  simp only [finalizeTagStep]
  by_cases hk : alHasKey A.1 tag = true
  · simp only [if_pos hk]
    obtain ⟨v, hv⟩ := (alHasKey_iff A.1 tag).mp hk
    have hvmem := alGet_mem A.1 tag v hv
    have hvlen : v.length = 1024 := hA.1 (tag, v) hvmem
    obtain ⟨cnt, hcnt0, hcnt1⟩ := hA.2 (tag, v) hvmem
    have hcnt2 : alGet A.2 tag = some cnt := hcnt0
    simp only [hv, hcnt2, Option.getD_some]
    refine ⟨fun p hp => ?_, fun p hp => ?_⟩
    · rcases mem_alSet _ _ _ p hp with h1 | h1
      · rw [h1]
        rw [List.length_zipWith, hvlen, he]
        omega
      · exact hA.1 p h1
    · by_cases hptag : (p : String × Vec).1 = tag
      · refine ⟨cnt + 1, ?_, by linarith⟩
        rw [hptag, alGet_alSet_self]
      · rcases mem_alSet _ _ _ p hp with h1 | h1
        · exact absurd (congrArg Prod.fst h1) hptag
        · obtain ⟨c2, hc2, hc21⟩ := hA.2 p h1
          exact ⟨c2, by rw [alGet_alSet_ne _ _ _ _ hptag]; exact hc2, hc21⟩
  · simp only [if_neg hk]
    simp only [alGet_alSet_self, Option.getD_some]
    refine ⟨fun p hp => ?_, fun p hp => ?_⟩
    · rcases mem_alSet _ _ _ p hp with h1 | h1
      · rw [h1]
        rw [List.length_zipWith, List.length_replicate, he]
        omega
      · rcases mem_alSet _ _ _ p h1 with h2 | h2
        · rw [h2]
          rw [List.length_replicate]
        · exact hA.1 p h2
    · by_cases hptag : (p : String × Vec).1 = tag
      · refine ⟨0 + 1, by rw [hptag, alGet_alSet_self], by norm_num⟩
      · rcases mem_alSet _ _ _ p hp with h1 | h1
        · exact absurd (congrArg Prod.fst h1) hptag
        · rcases mem_alSet _ _ _ p h1 with h2 | h2
          · exact absurd (congrArg Prod.fst h2) hptag
          · obtain ⟨c2, hc2, hc21⟩ := hA.2 p h2
            refine ⟨c2, ?_, hc21⟩
            rw [alGet_alSet_ne _ _ _ _ hptag, alGet_alSet_ne _ _ _ _ hptag]
            exact hc2

theorem finalizeDocStep_inv (F : FloatOps) (s : State)
    (A : List (String × Vec) × List (String × ℚ))
    (doc : String × List String) (hA : centroidAccInv A) :
    centroidAccInv (finalizeDocStep F s A doc) := by
  rw [finalizeDocStep]
  exact foldl_preserves centroidAccInv _
    (fun acc t h => finalizeTagStep_inv _
      (generateEmbedding_length F s doc.1 false) acc t h)
    doc.2 A hA

theorem normalized_sumsq_close (F : FloatOps)
    (hsqpos : ∀ x : ℚ, 0 < x → 0 < F.sqrt x)
    (hsqacc : ∀ x : ℚ, 0 < x → |F.sqrt x * F.sqrt x - x| ≤ x / 10000000)
    (avg : Vec) (hSpos : 0 < sumsq avg) :
    |sumsq (avg.map (fun x => x / F.sqrt (sumsq avg))) - 1| ≤ 1/1000000 := by
  have hn := hsqpos _ hSpos
  have hnn : (0:ℚ) < F.sqrt (sumsq avg) * F.sqrt (sumsq avg) := mul_pos hn hn
  rw [sumsq_map_div avg _ (ne_of_gt hn)]
  have hacc := abs_le.mp (hsqacc _ hSpos)
  have h1 : sumsq avg ≤
      (1 + 1/1000000) * (F.sqrt (sumsq avg) * F.sqrt (sumsq avg)) := by
    linarith [hacc.1, hSpos.le]
  have h2 : (1 - 1/1000000) * (F.sqrt (sumsq avg) * F.sqrt (sumsq avg)) ≤
      sumsq avg := by
    linarith [hacc.2, hSpos.le]
  rw [abs_le]
  constructor
  · linarith [(le_div_iff hnn).mpr h2]
  · linarith [(div_le_iff hnn).mpr h1]

theorem finalizeNorm_spec (F : FloatOps)
    (hsqpos : ∀ x : ℚ, 0 < x → 0 < F.sqrt x)
    (hsqacc : ∀ x : ℚ, 0 < x → |F.sqrt x * F.sqrt x - x| ≤ x / 10000000)
    (counts : List (String × ℚ)) (p : String × Vec)
    (hlen : (p : String × Vec).2.length = 1024)
    (hcnt : ∃ cnt : ℚ, alGet counts (p : String × Vec).1 = some cnt ∧ 1 ≤ cnt) :
    ∃ c : Vec, finalizeNorm F counts p = (p.1, c) ∧ c.length = 1024 ∧
      (c = List.replicate 1024 (0 : ℚ) ∨ |sumsq c - 1| ≤ 1/1000000) := by
  obtain ⟨cnt, hget, hc1⟩ := hcnt
  have hcpos : (0:ℚ) < cnt := lt_of_lt_of_le one_pos hc1
  simp only [finalizeNorm, hget, Option.getD_some]
  rw [if_pos hcpos]
  have hlavg : (p.2.map (fun x => x / cnt)).length = 1024 := by
    rw [List.length_map]
    exact hlen
  rcases eq_or_lt_of_le (sumsq_nonneg (p.2.map (fun x => x / cnt))) with
    hS0 | hSpos
  · have hall : ∀ x ∈ p.2.map (fun x => x / cnt), x = 0 :=
      eq_zero_of_sumsq_eq_zero _ hS0.symm
    by_cases hn : 0 < F.sqrt (sumsq (p.2.map (fun x => x / cnt)))
    · rw [if_pos hn]
      refine ⟨_, rfl, by rw [List.length_map]; exact hlavg, Or.inl ?_⟩
      refine List.eq_replicate_iff.mpr ⟨by rw [List.length_map]; exact hlavg, ?_⟩
      intro b hb
      obtain ⟨x, hx, hxb⟩ := List.mem_map.mp hb
      rw [← hxb, hall x hx, zero_div]
    · rw [if_neg hn]
      exact ⟨_, rfl, hlavg, Or.inl (List.eq_replicate_iff.mpr ⟨hlavg, hall⟩)⟩
  · have hn := hsqpos _ hSpos
    rw [if_pos hn]
    exact ⟨_, rfl, by rw [List.length_map]; exact hlavg,
      Or.inr (normalized_sumsq_close F hsqpos hsqacc _ hSpos)⟩

theorem finalizeTraining_tagEmbeddings (F : FloatOps) (s : State) :
    (finalizeTraining F s).tagEmbeddings =
      (s.trainingBuffer.foldl (finalizeDocStep F s)
        (s.tagEmbeddings, s.tagDocCounts)).1.map
        (finalizeNorm F
          (s.trainingBuffer.foldl (finalizeDocStep F s)
            (s.tagEmbeddings, s.tagDocCounts)).2) := rfl

/-! ## Lemmas: candidate tags, hierarchy enhancement, feedback
adjustment -/

theorem foldl_preserves_mem {α β : Type} (P : β → Prop) (step : β → α → β)
    (l0 : List α)
    (h : ∀ acc a, a ∈ l0 → P acc → P (step acc a)) :
    ∀ (l : List α), (∀ x ∈ l, x ∈ l0) → ∀ acc : β,
      P acc → P (l.foldl step acc) := by
  intro l
  induction l with
  | nil => intro _ acc hacc; exact hacc
  | cons x xs ih =>
    intro hsub acc hacc
    exact ih (fun y hy => hsub y (List.mem_cons_of_mem x hy)) _
      (h acc x (hsub x (List.mem_cons_self x xs)) hacc)

theorem mem_updateFirst {α : Type} (p : α → Bool) (f : α → α) :
    ∀ (l : List α) (x : α), x ∈ updateFirst p f l →
      x ∈ l ∨ ∃ y ∈ l, x = f y := by
  intro l
  induction l with
  | nil => intro x hx; exact Or.inl hx
  | cons z zs ih =>
    intro x hx
    rw [updateFirst] at hx
    by_cases hp : p z = true
    · rw [if_pos hp] at hx
      rcases List.mem_cons.mp hx with h1 | h1
      · exact Or.inr ⟨z, List.mem_cons_self z zs, h1⟩
      · exact Or.inl (List.mem_cons_of_mem z h1)
    · rw [if_neg hp] at hx
      rcases List.mem_cons.mp hx with h1 | h1
      · exact Or.inl (h1 ▸ List.mem_cons_self z zs)
      · rcases ih x h1 with h2 | h2
        · exact Or.inl (List.mem_cons_of_mem z h2)
        · obtain ⟨y, hy, hxy⟩ := h2
          exact Or.inr ⟨y, List.mem_cons_of_mem z hy, hxy⟩

theorem candidateTags_subset (emb : List (String × Vec)) (wl : List String)
    (hwl : wl ≠ []) : ∀ t ∈ candidateTags emb (some wl), t ∈ wl := by
  intro t ht
  have hne : wl.isEmpty = false := by
    cases wl with
    | nil => exact absurd rfl hwl
    | cons x xs => rfl
  rw [candidateTags] at ht
  rw [hne] at ht
  rw [Bool.not_false] at ht
  rw [if_pos rfl] at ht
  exact (List.mem_filter.mp ht).1

theorem mem_enhanceChild (a : AdvState) (es : List String)
    (st2 : List Suggestion × List Suggestion) (child : String) :
    (∀ u ∈ (enhanceChild a es st2 child).1, ∃ y ∈ st2.1, u.tag = y.tag) ∧
    (∀ u ∈ (enhanceChild a es st2 child).2, u ∈ st2.2 ∨ u.tag = child) := by
  rw [enhanceChild]
  split_ifs with h1 h2 h3
  · refine ⟨fun u hu => ?_, fun u hu => Or.inl hu⟩
    rcases mem_updateFirst _ _ st2.1 u hu with h4 | h4
    · exact ⟨u, h4, rfl⟩
    · obtain ⟨y, hy, huy⟩ := h4
      exact ⟨y, hy, by rw [huy]⟩
  · refine ⟨fun u hu => ⟨u, hu, rfl⟩, fun u hu => ?_⟩
    rcases List.mem_append.mp hu with h4 | h4
    · exact Or.inl h4
    · exact Or.inr (by rw [List.mem_singleton.mp h4])
  · exact ⟨fun u hu => ⟨u, hu, rfl⟩, fun u hu => Or.inl hu⟩
  · exact ⟨fun u hu => ⟨u, hu, rfl⟩, fun u hu => Or.inl hu⟩

theorem mem_enhanceExisting (a : AdvState) (es : List String)
    (st : List Suggestion × List Suggestion) (et : String) :
    (∀ u ∈ (enhanceExisting a es st et).1, ∃ y ∈ st.1, u.tag = y.tag) ∧
    (∀ u ∈ (enhanceExisting a es st et).2,
      u ∈ st.2 ∨ ∃ ch, alGet a.tagChildren (strToLower et) = some ch ∧
        u.tag ∈ ch) := by
  rw [enhanceExisting]
  cases hch : alGet a.tagChildren (strToLower et) with
  | none => exact ⟨fun u hu => ⟨u, hu, rfl⟩, fun u hu => Or.inl hu⟩
  | some children =>
    have hstep : ∀ (st2 : List Suggestion × List Suggestion) (child : String),
        child ∈ children →
        ((∀ u ∈ st2.1, ∃ y ∈ st.1, u.tag = y.tag) ∧
         (∀ u ∈ st2.2, u ∈ st.2 ∨ u.tag ∈ children)) →
        ((∀ u ∈ (enhanceChild a es st2 child).1, ∃ y ∈ st.1, u.tag = y.tag) ∧
         (∀ u ∈ (enhanceChild a es st2 child).2,
           u ∈ st.2 ∨ u.tag ∈ children)) := by
      intro st2 child hc hQ
      obtain ⟨e1, e2⟩ := mem_enhanceChild a es st2 child
      refine ⟨fun u hu => ?_, fun u hu => ?_⟩
      · obtain ⟨y, hy, huy⟩ := e1 u hu
        obtain ⟨z, hz, hyz⟩ := hQ.1 y hy
        exact ⟨z, hz, huy.trans hyz⟩
      · rcases e2 u hu with h4 | h4
        · exact hQ.2 u h4
        · exact Or.inr (by rw [h4]; exact hc)
    have key := foldl_preserves_mem _ (enhanceChild a es) children hstep
      children (fun x hx => hx) st
      ⟨fun u hu => ⟨u, hu, rfl⟩, fun u hu => Or.inl hu⟩
    exact ⟨key.1, fun u hu =>
      (key.2 u hu).imp id (fun h4 => ⟨children, rfl, h4⟩)⟩

theorem mem_enhanceWithHierarchy (a : AdvState) (results : List Suggestion)
    (ex : List String) :
    ∀ r ∈ enhanceWithHierarchy a results ex,
      (∃ r0 ∈ results, r.tag = r0.tag) ∨
      ∃ et ∈ ex, ∃ ch, alGet a.tagChildren (strToLower et) = some ch ∧
        r.tag ∈ ch := by
  intro r hr
  simp only [enhanceWithHierarchy] at hr
  have hr2 := mem_stableSortByDesc _ _ _ hr
  have hstep : ∀ (st : List Suggestion × List Suggestion) (et : String),
      et ∈ ex →
      ((∀ u ∈ st.1, ∃ r0 ∈ results, u.tag = r0.tag) ∧
       (∀ u ∈ st.2, ∃ et2 ∈ ex, ∃ ch,
         alGet a.tagChildren (strToLower et2) = some ch ∧ u.tag ∈ ch)) →
      ((∀ u ∈ (enhanceExisting a (ex.map strToLower) st et).1,
         ∃ r0 ∈ results, u.tag = r0.tag) ∧
       (∀ u ∈ (enhanceExisting a (ex.map strToLower) st et).2,
         ∃ et2 ∈ ex, ∃ ch,
           alGet a.tagChildren (strToLower et2) = some ch ∧ u.tag ∈ ch)) := by
    intro st et h_et hQ
    obtain ⟨e1, e2⟩ := mem_enhanceExisting a (ex.map strToLower) st et
    refine ⟨fun u hu => ?_, fun u hu => ?_⟩
    · obtain ⟨y, hy, huy⟩ := e1 u hu
      obtain ⟨r0, hr0, hytag⟩ := hQ.1 y hy
      exact ⟨r0, hr0, huy.trans hytag⟩
    · rcases e2 u hu with h4 | h4
      · exact hQ.2 u h4
      · obtain ⟨ch, hch, hmemch⟩ := h4
        exact ⟨et, h_et, ch, hch, hmemch⟩
  have key := foldl_preserves_mem _ (enhanceExisting a (ex.map strToLower))
    ex hstep ex (fun x hx => hx) (results, [])
    ⟨fun u hu => ⟨u, hu, rfl⟩, fun u hu => absurd hu (List.not_mem_nil u)⟩
  rcases List.mem_append.mp hr2 with h1 | h1
  · exact Or.inl (key.1 r h1)
  · exact Or.inr (key.2 r h1)

theorem adjustWithFeedback_tag (a : AdvState) (results : List Suggestion) :
    ∀ r ∈ adjustWithFeedback a results, ∃ r0 ∈ results, r.tag = r0.tag := by
  intro r hr
  obtain ⟨r0, hr0, hmap⟩ := List.mem_map.mp hr
  refine ⟨r0, hr0, ?_⟩
  rw [← hmap]
  dsimp only
  cases hfb : alGet a.userFeedback r0.tag with
  | none => rfl
  | some fb =>
    dsimp only
    split
    · rfl
    · rfl

/-! ## Lemmas: appending and key sets of association lists, fold
utilities, sorting permutations -/

theorem alHasKey_nil {α : Type} (k : String) :
    alHasKey ([] : List (String × α)) k = false := rfl

theorem alHasKey_cons {α : Type} (p : String × α) (m : List (String × α))
    (k : String) :
    alHasKey (p :: m) k = (if p.1 = k then true else alHasKey m k) := by
  rw [alHasKey, alGet_cons]
  by_cases h : p.1 = k
  · rw [if_pos h, if_pos h]
    rfl
  · rw [if_neg h, if_neg h]
    rfl

theorem alGet_append_left {α : Type} (m1 m2 : List (String × α)) (k : String)
    (h : alHasKey m1 k = false) : alGet (m1 ++ m2) k = alGet m2 k := by
  induction m1 with
  | nil => rfl
  | cons p rest ih =>
    rw [alHasKey_cons] at h
    rw [List.cons_append, alGet_cons]
    by_cases hp : p.1 = k
    · rw [if_pos hp] at h
      exact Bool.noConfusion h
    · rw [if_neg hp] at h
      rw [if_neg hp]
      exact ih h

theorem alSet_append_left {α : Type} (m1 m2 : List (String × α)) (k : String)
    (v : α) (h : alHasKey m1 k = false) :
    alSet (m1 ++ m2) k v = m1 ++ alSet m2 k v := by
  induction m1 with
  | nil => rfl
  | cons p rest ih =>
    rw [alHasKey_cons] at h
    rw [List.cons_append, alSet]
    by_cases hp : p.1 = k
    · rw [if_pos hp] at h
      exact Bool.noConfusion h
    · rw [if_neg hp] at h
      rw [if_neg hp, ih h, List.cons_append]

theorem alGet_none_of_hasKey_false {α : Type} (m : List (String × α))
    (k : String) (h : alHasKey m k = false) : alGet m k = none := by
  cases halg : alGet m k with
  | none => rfl
  | some l =>
    rw [alHasKey, halg] at h
    exact Bool.noConfusion h

theorem alAddToSet_append (m1 m2 : List (String × List String))
    (k v : String) (h : alHasKey m1 k = false) :
    alAddToSet (m1 ++ m2) k v = m1 ++ alAddToSet m2 k v := by
  rw [alAddToSet, alAddToSet, alGet_append_left m1 m2 k h]
  cases halg : alGet m2 k with
  | some l =>
    exact alSet_append_left m1 m2 k _ h
  | none =>
    exact List.append_assoc m1 m2 [(k, [v])]

theorem alAddToSet_not_mem (m : List (String × List String)) (k v : String)
    (h : alHasKey m k = false) : alAddToSet m k v = m ++ [(k, [v])] := by
  rw [alAddToSet, alGet_none_of_hasKey_false m k h]

theorem alHasKey_append {α : Type} (m1 m2 : List (String × α)) (k : String) :
    alHasKey (m1 ++ m2) k = (alHasKey m1 k || alHasKey m2 k) := by
  induction m1 with
  | nil => rfl
  | cons p rest ih =>
    rw [List.cons_append, alHasKey_cons, alHasKey_cons]
    by_cases hp : p.1 = k
    · rw [if_pos hp, if_pos hp]
      rfl
    · rw [if_neg hp, if_neg hp]
      exact ih

theorem foldl_pair_split {α β γ : Type} (f : β → α → β) (g : γ → α → γ)
    (step : β × γ → α → β × γ)
    (hstep : ∀ acc x, step acc x = (f acc.1 x, g acc.2 x)) :
    ∀ (l : List α) (acc : β × γ),
      l.foldl step acc = (l.foldl f acc.1, l.foldl g acc.2) := by
  intro l
  induction l with
  | nil => intro acc; rfl
  | cons x xs ih =>
    intro acc
    rw [List.foldl_cons, List.foldl_cons, List.foldl_cons, hstep acc x]
    exact ih (f acc.1 x, g acc.2 x)

theorem foldl_congr_fun {α β : Type} (f g : β → α → β) :
    ∀ (l : List α), (∀ b a, a ∈ l → f b a = g b a) →
      ∀ b, l.foldl f b = l.foldl g b := by
  intro l
  induction l with
  | nil => intro _ b; rfl
  | cons x xs ih =>
    intro h b
    rw [List.foldl_cons, List.foldl_cons, h b x (List.mem_cons_self x xs)]
    exact ih (fun b2 a ha => h b2 a (List.mem_cons_of_mem x ha)) _

theorem foldl_filter_if {α β : Type} (p : α → Bool) (f : β → α → β) :
    ∀ (l : List α) (b : β),
      (l.filter p).foldl f b =
        l.foldl (fun acc x => if p x then f acc x else acc) b := by
  intro l
  induction l with
  | nil => intro b; rfl
  | cons x xs ih =>
    intro b
    rw [List.filter_cons]
    by_cases hp : p x = true
    · rw [if_pos hp, List.foldl_cons, List.foldl_cons, if_pos hp]
      exact ih _
    · rw [if_neg hp, List.foldl_cons, if_neg hp]
      exact ih _

theorem insertStrAsc_perm (x : String) :
    ∀ l : List String, List.Perm (insertStrAsc x l) (x :: l) := by
  intro l
  induction l with
  | nil => exact List.Perm.refl _
  | cons y ys ih =>
    rw [insertStrAsc]
    by_cases h : charListLt x.data y.data = true
    · rw [if_pos h]
    · rw [if_neg h]
      exact List.Perm.trans (List.Perm.cons y ih) (List.Perm.swap x y ys)

theorem sortStrings_perm (l : List String) :
    List.Perm (sortStrings l) l := by
  rw [sortStrings]
  induction l with
  | nil => exact List.Perm.refl _
  | cons x xs ih =>
    rw [List.foldr_cons]
    exact List.Perm.trans (insertStrAsc_perm x _) (List.Perm.cons x ih)

theorem sortStrings_nodup (l : List String) (h : l.Nodup) :
    (sortStrings l).Nodup := ((sortStrings_perm l).nodup_iff).mpr h

theorem mem_alKeys_alSet {α : Type} (m : List (String × α)) (k : String)
    (v : α) : ∀ u ∈ alKeys (alSet m k v), u ∈ alKeys m ∨ u = k := by
  intro u hu
  obtain ⟨q, hq, hqu⟩ := List.mem_map.mp hu
  rcases mem_alSet m k v q hq with h1 | h1
  · right
    rw [← hqu, h1]
  · left
    exact List.mem_map.mpr ⟨q, h1, hqu⟩

theorem alSet_not_mem_append {α : Type} (m : List (String × α)) (k : String)
    (v : α) (h : alHasKey m k = false) : alSet m k v = m ++ [(k, v)] := by
  induction m with
  | nil => rfl
  | cons p rest ih =>
    rw [alHasKey_cons] at h
    rw [alSet]
    by_cases hp : p.1 = k
    · rw [if_pos hp] at h
      exact Bool.noConfusion h
    · rw [if_neg hp] at h
      rw [if_neg hp, ih h, List.cons_append]

theorem alSet_nodup_keys {α : Type} (m : List (String × α)) (k : String)
    (v : α) (h : (alKeys m).Nodup) : (alKeys (alSet m k v)).Nodup := by
  induction m with
  | nil => exact List.nodup_singleton k
  | cons p rest ih =>
    rw [alSet]
    have hkeys : alKeys (p :: rest) = p.1 :: alKeys rest := rfl
    rw [hkeys] at h
    have hnotin := (List.nodup_cons.mp h).1
    have hrest := (List.nodup_cons.mp h).2
    by_cases hp : p.1 = k
    · rw [if_pos hp]
      have : alKeys ((k, v) :: rest) = k :: alKeys rest := rfl
      rw [this]
      exact List.nodup_cons.mpr ⟨by rw [← hp]; exact hnotin, hrest⟩
    · rw [if_neg hp]
      have : alKeys (p :: alSet rest k v) = p.1 :: alKeys (alSet rest k v) :=
        rfl
      rw [this]
      refine List.nodup_cons.mpr ⟨fun hmem => ?_, ih hrest⟩
      rcases mem_alKeys_alSet rest k v p.1 hmem with h1 | h1
      · exact hnotin h1
      · exact hp h1

/-! ## Lemmas: the export/import round trip of the base classifier -/

theorem filterMap_export (l : List (String × Vec))
    (h : ∀ p ∈ l, (p : String × Vec).2.length = 1024) :
    (l.map (fun p => (p.1, some p.2))).filterMap
      (fun p => match p.2 with
        | some e => if e.length = 1024 then some (p.1, e) else none
        | none => none) = l := by
  induction l with
  | nil => rfl
  | cons q rest ih =>
    rw [List.map_cons, List.filterMap_cons]
    dsimp only
    rw [if_pos (h q (List.mem_cons_self q rest))]
    rw [ih (fun p hp => h p (List.mem_cons_of_mem q hp))]

theorem export_badTags_nil (l : List (String × Vec))
    (h : ∀ p ∈ l, (p : String × Vec).2.length = 1024) :
    ((l.map (fun p => (p.1, some p.2))).filter
      (fun p => !validEmbedding p.2)).map (fun p => p.1) = [] := by
  have hfil : (l.map (fun p => (p.1, some p.2))).filter
      (fun p => !validEmbedding p.2) = [] := by
    refine List.filter_eq_nil.mpr ?_
    intro q hq
    obtain ⟨p0, hp0, hf⟩ := List.mem_map.mp hq
    rw [← hf]
    simp [validEmbedding, h p0 hp0]
  rw [hfil]
  rfl

theorem filter_nil_contains {γ : Type} (l : List (String × γ)) :
    l.filter (fun p => !(([] : List String).contains p.1)) = l :=
  List.filter_eq_self.mpr (fun a _ => rfl)

theorem rebuild_docFrequency :
    ∀ (l : List (String × ℚ)) (acc : List (String × ℚ)),
      (∀ p ∈ l, 0 < (p : String × ℚ).2) →
      (∀ p ∈ l, alHasKey acc (p : String × ℚ).1 = false) →
      (alKeys l).Nodup →
      l.foldl (fun m p => if 0 < p.2 then alSet m p.1 p.2 else m) acc =
        acc ++ l := by
  intro l
  induction l with
  | nil => intro acc _ _ _; exact (List.append_nil acc).symm
  | cons p ps ih =>
    intro acc hpos hkeys hnd
    have hkc : alKeys (p :: ps) = p.1 :: alKeys ps := rfl
    rw [hkc] at hnd
    have hhead : p.1 ∉ alKeys ps := (List.nodup_cons.mp hnd).1
    have hnd2 : (alKeys ps).Nodup := (List.nodup_cons.mp hnd).2
    rw [List.foldl_cons, if_pos (hpos p (List.mem_cons_self p ps))]
    rw [alSet_not_mem_append acc p.1 p.2 (hkeys p (List.mem_cons_self p ps))]
    have hfresh : ∀ q ∈ ps,
        alHasKey (acc ++ [(p.1, p.2)]) (q : String × ℚ).1 = false := by
      intro q hq
      have hne : p.1 ≠ q.1 := fun he =>
        hhead (by rw [he]; exact List.mem_map.mpr ⟨q, hq, rfl⟩)
      rw [alHasKey_append, hkeys q (List.mem_cons_of_mem p hq),
        alHasKey_cons, if_neg hne, alHasKey_nil]
      rfl
    rw [ih (acc ++ [(p.1, p.2)])
      (fun q hq => hpos q (List.mem_cons_of_mem p hq)) hfresh hnd2]
    rw [List.append_assoc]
    rfl

theorem importData_exportData (s0 s2 : State)
    (hlen : ∀ p ∈ s0.tagEmbeddings, (p : String × Vec).2.length = 1024)
    (htd : ¬ s0.totalDocs < 0)
    (hdfp : ∀ p ∈ s0.docFrequency, 0 < (p : String × ℚ).2)
    (hdfn : (alKeys s0.docFrequency).Nodup) :
    importData (some (exportData s0)) s2 =
      Except.ok { s0 with trainingBuffer := s2.trainingBuffer } := by
  have hTD : (exportData s0).totalDocs = some s0.totalDocs := rfl
  rw [importData, hTD]
  dsimp only
  rw [if_neg htd]
  refine congrArg Except.ok ?_
  have hE : (exportData s0).tagEmbeddings =
      s0.tagEmbeddings.map (fun p => (p.1, some p.2)) := rfl
  have hC : (exportData s0).tagDocCounts = s0.tagDocCounts := rfl
  have hW : (exportData s0).tagDistinctiveWords = s0.tagDistinctiveWords := rfl
  have hD : (exportData s0).docFrequency = s0.docFrequency := rfl
  rw [hE, hC, hW, hD]
  rw [export_badTags_nil s0.tagEmbeddings hlen]
  rw [filter_nil_contains, filter_nil_contains]
  rw [filterMap_export s0.tagEmbeddings hlen]
  rw [rebuild_docFrequency s0.docFrequency [] hdfp (fun q _ => rfl) hdfn]
  rfl

theorem baseClassify_ignores_buffer (F : FloatOps) (s : State)
    (tb : List (String × List String)) (text : String)
    (wl : Option (List String)) (ms : ℚ) (mr : Nat) (ex : List String) :
    baseClassify F { s with trainingBuffer := tb } text wl ms mr ex =
      baseClassify F s text wl ms mr ex := by
  cases s
  rfl

/-! ## Lemmas: invariants of the trained-and-finalized state -/

theorem train_totalDocs_nonneg (s : State) (t : String) (tags : List String)
    (h : 0 ≤ s.totalDocs) : 0 ≤ (train s t tags).totalDocs := by
  rw [train]
  split
  · exact h
  · dsimp only
    linarith

theorem trainMany_totalDocs_nonneg (docs : List (String × List String)) :
    ∀ s : State, 0 ≤ s.totalDocs → 0 ≤ (trainMany s docs).totalDocs := by
  induction docs with
  | nil => intro s h; exact h
  | cons d ds ih =>
    intro s h
    rw [trainMany, List.foldl_cons]
    have h2 := ih (train s d.1 d.2) (train_totalDocs_nonneg s d.1 d.2 h)
    rw [trainMany] at h2
    exact h2

theorem df_step_pos (m : List (String × ℚ)) (w : String)
    (h : ∀ p ∈ m, 0 < (p : String × ℚ).2) :
    ∀ p ∈ alSet m w (((alGet m w).getD 0) + 1), 0 < (p : String × ℚ).2 := by
  intro p hp
  rcases mem_alSet _ _ _ p hp with h1 | h1
  · rw [h1]
    dsimp only
    cases halg : alGet m w with
    | some v =>
      have hv := h (w, v) (alGet_mem m w v halg)
      dsimp only [Option.getD]
      dsimp only at hv
      linarith
    | none =>
      dsimp only [Option.getD]
      norm_num
  · exact h p h1

theorem train_df_pos (s : State) (t : String) (tags : List String)
    (h : ∀ p ∈ s.docFrequency, 0 < (p : String × ℚ).2) :
    ∀ p ∈ (train s t tags).docFrequency, 0 < (p : String × ℚ).2 := by
  rw [train]
  split
  · exact h
  · dsimp only
    exact foldl_preserves
      (fun m : List (String × ℚ) => ∀ p ∈ m, 0 < (p : String × ℚ).2) _
      (fun m w hm => df_step_pos m w hm) _ _ h

theorem trainMany_df_pos (docs : List (String × List String)) :
    ∀ s : State, (∀ p ∈ s.docFrequency, 0 < (p : String × ℚ).2) →
      ∀ p ∈ (trainMany s docs).docFrequency, 0 < (p : String × ℚ).2 := by
  induction docs with
  | nil => intro s h; exact h
  | cons d ds ih =>
    intro s h
    rw [trainMany, List.foldl_cons]
    have h2 := ih (train s d.1 d.2) (train_df_pos s d.1 d.2 h)
    rw [trainMany] at h2
    exact h2

theorem train_df_nodup (s : State) (t : String) (tags : List String)
    (h : (alKeys s.docFrequency).Nodup) :
    (alKeys (train s t tags).docFrequency).Nodup := by
  rw [train]
  split
  · exact h
  · dsimp only
    exact foldl_preserves
      (fun m : List (String × ℚ) => (alKeys m).Nodup) _
      (fun m w hm => alSet_nodup_keys m w _ hm) _ _ h

theorem trainMany_df_nodup (docs : List (String × List String)) :
    ∀ s : State, (alKeys s.docFrequency).Nodup →
      (alKeys (trainMany s docs).docFrequency).Nodup := by
  induction docs with
  | nil => intro s h; exact h
  | cons d ds ih =>
    intro s h
    rw [trainMany, List.foldl_cons]
    have h2 := ih (train s d.1 d.2) (train_df_nodup s d.1 d.2 h)
    rw [trainMany] at h2
    exact h2

theorem finalizeNorm_fst (F : FloatOps) (c : List (String × ℚ))
    (p : String × Vec) : (finalizeNorm F c p).1 = p.1 := by
  rw [finalizeNorm]
  dsimp only
  split_ifs <;> rfl

theorem finalizeNorm_snd_length (F : FloatOps) (c : List (String × ℚ))
    (p : String × Vec) :
    (finalizeNorm F c p).2.length = p.2.length := by
  rw [finalizeNorm]
  dsimp only
  split_ifs with h1 h2
  · dsimp only
    rw [List.length_map, List.length_map]
  · dsimp only
    rw [List.length_map]
  · rfl

theorem finalized_fresh_emb_length (F : FloatOps)
    (docs : List (String × List String)) :
    ∀ p ∈ (finalizeTraining F (trainMany freshState docs)).tagEmbeddings,
      (p : String × Vec).2.length = 1024 := by
  intro p hp
  rw [finalizeTraining_tagEmbeddings] at hp
  obtain ⟨q, hq, hqp⟩ := List.mem_map.mp hp
  have hinit : centroidAccInv
      ((trainMany freshState docs).tagEmbeddings,
        (trainMany freshState docs).tagDocCounts) := by
    refine ⟨fun u hu => ?_, fun u hu => ?_⟩ <;>
    · have hu2 : u ∈ (trainMany freshState docs).tagEmbeddings := hu
      rw [trainMany_tagEmbeddings docs freshState] at hu2
      exact absurd hu2 (List.not_mem_nil u)
  have hInv := foldl_preserves centroidAccInv _
    (finalizeDocStep_inv F (trainMany freshState docs))
    (trainMany freshState docs).trainingBuffer _ hinit
  rw [← hqp, finalizeNorm_snd_length]
  exact hInv.1 q hq

theorem finalizeTagStep_keys_nodup (e : Vec)
    (A : List (String × Vec) × List (String × ℚ)) (tag : String)
    (h : (alKeys A.1).Nodup) :
    (alKeys (finalizeTagStep e A tag).1).Nodup := by
  rw [finalizeTagStep]
  by_cases hk : alHasKey A.1 tag = true
  · simp only [if_pos hk]
    exact alSet_nodup_keys _ _ _ h
  · simp only [if_neg hk]
    exact alSet_nodup_keys _ _ _ (alSet_nodup_keys _ _ _ h)

theorem finalizeDocStep_keys_nodup (F : FloatOps) (s : State)
    (A : List (String × Vec) × List (String × ℚ))
    (doc : String × List String) (h : (alKeys A.1).Nodup) :
    (alKeys (finalizeDocStep F s A doc).1).Nodup := by
  rw [finalizeDocStep]
  exact foldl_preserves
    (fun A2 : List (String × Vec) × List (String × ℚ) =>
      (alKeys A2.1).Nodup) _
    (fun acc t hacc => finalizeTagStep_keys_nodup _ acc t hacc)
    doc.2 A h

theorem alKeys_map_finalizeNorm (F : FloatOps) (c : List (String × ℚ)) :
    ∀ l : List (String × Vec),
      alKeys (l.map (finalizeNorm F c)) = alKeys l := by
  intro l
  induction l with
  | nil => rfl
  | cons p ps ih =>
    rw [List.map_cons]
    have h1 : alKeys ((finalizeNorm F c p) :: ps.map (finalizeNorm F c)) =
        (finalizeNorm F c p).1 :: alKeys (ps.map (finalizeNorm F c)) := rfl
    rw [h1, finalizeNorm_fst, ih]
    rfl

theorem finalized_fresh_keys_nodup (F : FloatOps)
    (docs : List (String × List String)) :
    (alKeys
      (finalizeTraining F (trainMany freshState docs)).tagEmbeddings).Nodup := by
  rw [finalizeTraining_tagEmbeddings, alKeys_map_finalizeNorm]
  refine foldl_preserves
    (fun A : List (String × Vec) × List (String × ℚ) =>
      (alKeys A.1).Nodup)
    (finalizeDocStep F (trainMany freshState docs)) ?_ _ _ ?_
  · exact fun acc doc hacc =>
      finalizeDocStep_keys_nodup F (trainMany freshState docs) acc doc hacc
  · show (alKeys (trainMany freshState docs).tagEmbeddings).Nodup
    rw [trainMany_tagEmbeddings docs freshState]
    exact List.nodup_nil

theorem advTrainMany_base (docs : List (String × List String)) :
    ∀ a : AdvState, (advTrainMany a docs).base = trainMany a.base docs := by
  induction docs with
  | nil => intro a; rfl
  | cons d ds ih =>
    intro a
    rw [advTrainMany, List.foldl_cons]
    have h := ih (advTrain a d.1 d.2)
    rw [advTrainMany] at h
    rw [h]
    rfl

/-! ## Lemmas: the hierarchy rebuild of the advanced import -/

theorem contains_false_iff (l : List String) (x : String) :
    l.contains x = false ↔ x ∉ l := by
  cases hc : l.contains x
  · refine ⟨fun _ hm => ?_, fun _ => rfl⟩
    have h2 : l.contains x = true := List.elem_iff.mpr hm
    rw [hc] at h2
    exact Bool.noConfusion h2
  · refine ⟨fun h => Bool.noConfusion h, fun hnm => ?_⟩
    exact absurd (List.elem_iff.mp hc) hnm

theorem buildTagHierarchy_split (a : AdvState) :
    buildTagHierarchy a =
      { a with
        tagHierarchy := (sortStrings (alKeys a.base.tagEmbeddings)).foldl
          (hierHFold (sortStrings (alKeys a.base.tagEmbeddings))) [],
        tagChildren := (sortStrings (alKeys a.base.tagEmbeddings)).foldl
          (hierCFold (sortStrings (alKeys a.base.tagEmbeddings))) [] } := by
  rw [buildTagHierarchy]
  have hsplit := foldl_pair_split
    (hierHFold (sortStrings (alKeys a.base.tagEmbeddings)))
    (hierCFold (sortStrings (alKeys a.base.tagEmbeddings)))
    (fun acc tag => (sortStrings (alKeys a.base.tagEmbeddings)).foldl
      (fun acc2 potentialParent =>
        if tag = potentialParent then acc2
        else if hierRel tag potentialParent then
          (alAddToSet acc2.1 tag potentialParent,
           alAddToSet acc2.2 potentialParent tag)
        else acc2) acc)
    (fun acc tag => by
      rw [hierHFold, hierCFold]
      exact foldl_pair_split (hierHStep tag) (hierCStep tag) _
        (fun acc2 p => by rw [hierHStep, hierCStep]; split_ifs <;> rfl)
        (sortStrings (alKeys a.base.tagEmbeddings)) acc)
    (sortStrings (alKeys a.base.tagEmbeddings)) ([], [])
  rw [hsplit]

theorem hierHFold_filter (T : List String) (tag : String) :
    ∀ h0, hierHFold T h0 tag =
      (hierParents T tag).foldl (fun h2 p => alAddToSet h2 tag p) h0 := by
  intro h0
  rw [hierHFold, hierParents, foldl_filter_if]
  refine foldl_congr_fun _ _ T ?_ h0
  intro b p _
  rw [hierHStep]
  by_cases he : tag = p
  · rw [if_pos he]
    have hb : (tag == p) = true := beq_iff_eq.mpr he
    simp [hb]
  · rw [if_neg he]
    have hb : (tag == p) = false := beq_eq_false_iff_ne.mpr he
    by_cases hr : hierRel tag p = true
    · rw [if_pos hr]
      simp [hb, hr]
    · rw [if_neg hr]
      simp [hb, Bool.eq_false_iff.mpr hr]

theorem hierCFold_filter (T : List String) (tag : String) :
    ∀ c0, hierCFold T c0 tag =
      (hierParents T tag).foldl (fun c2 p => alAddToSet c2 p tag) c0 := by
  intro c0
  rw [hierCFold, hierParents, foldl_filter_if]
  refine foldl_congr_fun _ _ T ?_ c0
  intro b p _
  rw [hierCStep]
  by_cases he : tag = p
  · rw [if_pos he]
    have hb : (tag == p) = true := beq_iff_eq.mpr he
    simp [hb]
  · rw [if_neg he]
    have hb : (tag == p) = false := beq_eq_false_iff_ne.mpr he
    by_cases hr : hierRel tag p = true
    · rw [if_pos hr]
      simp [hb, hr]
    · rw [if_neg hr]
      simp [hb, Bool.eq_false_iff.mpr hr]

theorem addToSet_chain (tag : String) :
    ∀ (qs : List String) (acc : List String)
      (h0 : List (String × List String)),
      alHasKey h0 tag = false →
      (∀ q ∈ qs, acc.contains q = false) → qs.Nodup →
      qs.foldl (fun h2 p => alAddToSet h2 tag p) (h0 ++ [(tag, acc)]) =
        h0 ++ [(tag, acc ++ qs)] := by
  intro qs
  induction qs with
  | nil =>
    intro acc h0 _ _ _
    rw [List.foldl_nil, List.append_nil]
  | cons q qs ih =>
    intro acc h0 hh0 hdisj hnd
    rw [List.foldl_cons]
    rw [alAddToSet_append h0 [(tag, acc)] tag q hh0]
    have hget : alGet [(tag, acc)] tag = some acc := by
      rw [alGet_cons, if_pos rfl]
    rw [alAddToSet, hget]
    dsimp only
    rw [hdisj q (List.mem_cons_self q qs)]
    rw [if_neg Bool.false_ne_true]
    have hset : alSet [(tag, acc)] tag (acc ++ [q]) = [(tag, acc ++ [q])] := by
      rw [alSet, if_pos rfl]
    rw [hset]
    have hq_notin : q ∉ qs := (List.nodup_cons.mp hnd).1
    have hdisj2 : ∀ q2 ∈ qs, (acc ++ [q]).contains q2 = false := by
      intro q2 hq2
      refine (contains_false_iff _ _).mpr ?_
      intro hm
      rcases List.mem_append.mp hm with hm1 | hm1
      · have h1 := hdisj q2 (List.mem_cons_of_mem q hq2)
        exact absurd ((contains_false_iff _ _).mp h1) (fun h => h hm1)
      · exact hq_notin (List.mem_singleton.mp hm1 ▸ hq2)
    rw [ih (acc ++ [q]) h0 hh0 hdisj2 (List.nodup_cons.mp hnd).2]
    rw [List.append_assoc]
    rfl

theorem hierHFold_new_cons (T : List String) (tag : String)
    (h0 : List (String × List String)) (hh0 : alHasKey h0 tag = false)
    (hnd : (hierParents T tag).Nodup)
    (q : String) (qs : List String) (hqs : hierParents T tag = q :: qs) :
    hierHFold T h0 tag = h0 ++ [(tag, hierParents T tag)] := by
  rw [hierHFold_filter T tag h0, hqs, List.foldl_cons]
  rw [alAddToSet_not_mem h0 tag q hh0]
  rw [hqs] at hnd
  have hq_notin : q ∉ qs := (List.nodup_cons.mp hnd).1
  have hdisj : ∀ q2 ∈ qs, ([q] : List String).contains q2 = false := by
    intro q2 hq2
    refine (contains_false_iff _ _).mpr ?_
    intro hm
    exact hq_notin (List.mem_singleton.mp hm ▸ hq2)
  rw [addToSet_chain tag qs [q] h0 hh0 hdisj (List.nodup_cons.mp hnd).2]
  rfl

theorem hier_fold_replay (T : List String) (hT : T.Nodup) :
    ∀ (L : List String), L.Nodup →
      ∀ (h0 c0 : List (String × List String)),
      (∀ u ∈ L, alHasKey h0 u = false) →
      ∃ Δ : List (String × List String),
        L.foldl (hierHFold T) h0 = h0 ++ Δ ∧
        L.foldl (hierCFold T) c0 = Δ.foldl
          (fun (ch : List (String × List String))
              (p : String × List String) =>
            p.2.foldl (fun ch2 parent => alAddToSet ch2 parent p.1) ch)
          c0 := by
  intro L
  induction L with
  | nil =>
    intro _ h0 c0 _
    exact ⟨[], (List.append_nil h0).symm, rfl⟩
  | cons t ts ih =>
    intro hnd h0 c0 hfresh
    have hndt := List.nodup_cons.mp hnd
    rw [List.foldl_cons, List.foldl_cons]
    have hker := hfresh t (List.mem_cons_self t ts)
    cases hqs : hierParents T t with
    | nil =>
      rw [hierHFold_filter T t h0, hqs, List.foldl_nil]
      rw [hierCFold_filter T t c0, hqs, List.foldl_nil]
      exact ih hndt.2 h0 c0
        (fun u hu => hfresh u (List.mem_cons_of_mem t hu))
    | cons q qs =>
      have hpnd : (hierParents T t).Nodup := List.Nodup.filter _ hT
      rw [hierHFold_new_cons T t h0 hker hpnd q qs hqs]
      rw [hierCFold_filter T t c0]
      have hfresh2 : ∀ u ∈ ts,
          alHasKey (h0 ++ [(t, hierParents T t)]) u = false := by
        intro u hu
        have hne : (t, hierParents T t).1 ≠ u := fun he =>
          hndt.1 (by
            have h3 : t = u := he
            rw [h3]
            exact hu)
        rw [alHasKey_append, hfresh u (List.mem_cons_of_mem t hu),
          alHasKey_cons, if_neg hne, alHasKey_nil]
        rfl
      obtain ⟨Δ, hH, hC⟩ := ih hndt.2 (h0 ++ [(t, hierParents T t)])
        ((hierParents T t).foldl (fun c2 p => alAddToSet c2 p t) c0) hfresh2
      refine ⟨(t, hierParents T t) :: Δ, ?_, ?_⟩
      · rw [hH, List.append_assoc]
        rfl
      · rw [hC, List.foldl_cons]

theorem rebuildChildren_buildTagHierarchy (a : AdvState)
    (hnd : (alKeys a.base.tagEmbeddings).Nodup) :
    rebuildChildren (buildTagHierarchy a).tagHierarchy =
      (buildTagHierarchy a).tagChildren := by
  rw [buildTagHierarchy_split]
  dsimp only
  have hT : (sortStrings (alKeys a.base.tagEmbeddings)).Nodup :=
    sortStrings_nodup _ hnd
  obtain ⟨Δ, hH, hC⟩ := hier_fold_replay _ hT _ hT [] [] (fun u _ => rfl)
  rw [hH, hC, rebuildChildren]
  rfl

/-- The advanced `classify` reads neither the training buffer nor the
serialised parent hierarchy: replacing them leaves the output unchanged. -/
theorem advClassify_ignores (F : FloatOps) (a : AdvState)
    (tb : List (String × List String)) (th : List (String × List String))
    (text : String) (wl : Option (List String)) (ms : ℚ) (mr : Nat)
    (ex : List String) :
    advClassify F
      { base := { a.base with trainingBuffer := tb },
        tagHierarchy := th, tagChildren := a.tagChildren,
        userFeedback := a.userFeedback } text wl ms mr ex =
      advClassify F a text wl ms mr ex := by
  cases a with
  | mk b th0 tc uf =>
    cases b
    rfl

/-! ## Claim theorems -/

/-- C9: for every classifier state and every text, `train(text, [])` with an
empty tag list is a silent no-op — it does not throw (it is a total
function of the model) and leaves every field of the classifier state
unchanged (training buffer, total document count, document-frequency map,
centroids, distinctive words). -/
theorem C9_train_empty_noop (s : State) (text : String) :
    train s text [] = s := by
  rw [train]
  rfl

/-- C10: `classify` is deterministic and side-effect-free, for the base and
the advanced classifier: the state-passing translation returns the state
unchanged (the source methods assign no field), and a second call on the
resulting state with identical arguments returns the identical output. -/
theorem C10_classify_pure (F : FloatOps) (s : State) (a : AdvState)
    (text : String) (wl : Option (List String)) (ms : ℚ) (mr : Nat)
    (ex : List String) :
    (baseClassifySt F s text wl ms mr ex).2 = s ∧
    (baseClassifySt F (baseClassifySt F s text wl ms mr ex).2 text wl ms mr
        ex).1 = (baseClassifySt F s text wl ms mr ex).1 ∧
    (advClassifySt F a text wl ms mr ex).2 = a ∧
    (advClassifySt F (advClassifySt F a text wl ms mr ex).2 text wl ms mr
        ex).1 = (advClassifySt F a text wl ms mr ex).1 :=
  ⟨rfl, rfl, rfl, rfl⟩

set_option maxRecDepth 1000000 in
attribute [local semireducible] Rat.add Rat.mul Rat.inv Rat.sub Rat.ofScientific in
/-- C1 counterexample: on the advanced classifier trained on two one-tag
documents, with three accepted feedback events for `ztag`, classifying the
training text of `ztag` returns a suggestion whose probability exceeds 1
(the exact cosine similarity of the document with its own centroid, about
1, multiplied by the 1.3 feedback boost). -/
theorem C1_counterexample :
    ∃ r ∈ advClassify ratOps fbState "zebra quartz" none (1/10) 5 [],
      1 < r.probability := by decide

set_option maxRecDepth 1000000 in
attribute [local semireducible] Rat.add Rat.mul Rat.inv Rat.sub Rat.ofScientific in
/-- C2 counterexample: the advanced classifier trained on `python` and its
hierarchy child `python-django`, classified with the non-empty whitelist
`[python]` and `existingTags = [python]`, returns the hierarchy-injected
suggestion `python-django`, which is not in the whitelist. -/
theorem C2_counterexample :
    (["python"] : List String) ≠ [] ∧
    ∃ r ∈ advClassify ratOps wlState "stone" (some ["python"]) (1/10) 5
      ["python"], r.tag ∉ (["python"] : List String) := by decide

set_option maxRecDepth 1000000 in
attribute [local semireducible] Rat.add Rat.mul Rat.inv Rat.sub Rat.ofScientific in
/-- C3 failing input: `artificial-intelligence` and `ai` have the same
normalised form under the fixed tag-synonym table, yet the advanced
classifier trained with `artificial-intelligence` and classifying with
`existingTags = [ai]` still suggests `artificial-intelligence`, because
`normalizeTagLocal` omits the synonym-table step of the parent class (its
doc comment claims it uses the parent implementation). -/
theorem C3_exhibit :
    normalizeTag "artificial-intelligence" = normalizeTag "ai" ∧
    ∃ r ∈ advClassify ratOps synState "zebra quartz" none (1/10) 5 ["ai"],
      r.tag = "artificial-intelligence" := by decide

set_option maxRecDepth 100000 in
/-- C7: if at classify-time any stored tag centroid has zero magnitude
(the only way the corrupted-centroid test can fire in exact arithmetic,
where non-finite components cannot arise), the advanced `classify` returns
the empty list for the whole call regardless of whitelist or the other
arguments; the base classifier performs no such global abort — on a state
holding a zero-magnitude centroid it still returns suggestions. -/
theorem C7_corrupted_abort (F : FloatOps) (a : AdvState) (text : String)
    (wl : Option (List String)) (ms : ℚ) (mr : Nat) (ex : List String)
    (hs0 : F.sqrt 0 = 0)
    (hz : ∃ p ∈ a.base.tagEmbeddings, sumsq p.2 = 0) :
    advClassify F a text wl ms mr ex = [] ∧
    baseClassify ratOps zeroCentroidState "xx" none 0 5 [] ≠ [] := by
  refine ⟨?_, zeroCentroid_base_nonempty⟩
  rcases hz with ⟨p, hp, hpz⟩
  have hmem : p ∈ a.base.tagEmbeddings.filter
      (fun q => F.sqrt (sumsq q.2) == 0) := by
    refine List.mem_filter.mpr ⟨hp, ?_⟩
    rw [hpz, hs0]
    simp
  have hlen : 0 < (a.base.tagEmbeddings.filter
      (fun q => F.sqrt (sumsq q.2) == 0)).length :=
    List.length_pos.mpr (List.ne_nil_of_mem hmem)
  have hne : a.base.tagEmbeddings.isEmpty = false := by
    cases hE : a.base.tagEmbeddings with
    | nil => rw [hE] at hp; exact absurd hp (List.not_mem_nil p)
    | cons x xs => rfl
  simp only [advClassify, hne, Bool.false_eq_true, if_false, hlen, if_true]

/-- C7 witness: the hypotheses of `C7_corrupted_abort` hold at the concrete
operations `ratOps` and the concrete state `zeroCentroidAdvState`, and the
advanced classify on it returns the empty list. -/
theorem C7_witness :
    ratOps.sqrt 0 = 0 ∧
    (∃ p ∈ zeroCentroidAdvState.base.tagEmbeddings, sumsq p.2 = 0) ∧
    advClassify ratOps zeroCentroidAdvState "xx" none 0 5 [] = [] := by
  have hz : ∃ p ∈ zeroCentroidAdvState.base.tagEmbeddings, sumsq p.2 = 0 :=
    ⟨("bad", List.replicate 1024 0), List.mem_singleton.mpr rfl,
      sumsq_replicate_zero 1024⟩
  exact ⟨ratSqrt_zero, hz,
    (C7_corrupted_abort ratOps zeroCentroidAdvState "xx" none 0 5 []
      ratSqrt_zero hz).1⟩

/-- C5: every suggestion returned by the base `classify`, for any state,
text and arguments, has lexical overlap (fraction of the tags cached
distinctive words present in the document token set, taken as 1.0 when the
tag has no cached distinctive words) of at least 0.40. -/
theorem C5_overlap_floor (F : FloatOps) (s : State) (text : String)
    (wl : Option (List String)) (ms : ℚ) (mr : Nat) (ex : List String) :
    ∀ r ∈ baseClassify F s text wl ms mr ex,
      2/5 ≤ lexOverlap s text r.tag := by
  intro r hr
  simp only [baseClassify] at hr
  split at hr
  · exact absurd hr (List.not_mem_nil r)
  · simp only [List.mem_map] at hr
    obtain ⟨t, ht, htr⟩ := hr
    have ht1 := List.mem_of_mem_take ht
    have ht2 := mem_stableSortByDesc _ _ _ ht1
    have key := mem_foldl_step _ (fun u : Scored =>
        2/5 ≤ wordOverlap ((alGet s.tagDistinctiveWords u.tag).getD [])
          (tokenize (preprocessText text))) _ ?hstep [] t ht2
    · rcases key with h0 | hP
      · exact absurd h0 (List.not_mem_nil t)
      · rw [← htr]
        exact hP
    case hstep =>
      intro acc tg x _ hx
      split_ifs at hx with h1 h2 h3 h4
      · exact Or.inl hx
      · rcases List.mem_append.mp hx with hxa | hxa
        · exact Or.inl hxa
        · have hx2 := List.mem_singleton.mp hxa
          subst hx2
          exact Or.inr (of_decide_eq_true ((Bool.and_eq_true _ _ ▸ h3).1))
      · exact Or.inl hx
      · rcases List.mem_append.mp hx with hxa | hxa
        · exact Or.inl hxa
        · have hx2 := List.mem_singleton.mp hxa
          subst hx2
          exact Or.inr (of_decide_eq_true ((Bool.and_eq_true _ _ ▸ h4).1))
      · exact Or.inl hx

/-- C1 (amended): the advanced classifier can return probabilities above 1
(see `C1_counterexample`: hierarchy and feedback boosts multiply by up to
1.2 * 1.3); for the base classifier, with a non-negative `minSimilarity`
argument and a square root of 1e-7 relative square-accuracy, every returned
probability lies in [0, 1 + 1e-6] — the [0, 1] interval of the claim up to
square-root rounding. -/
theorem C1_amended_base_probability (F : FloatOps) (s : State) (text : String)
    (wl : Option (List String)) (ms : ℚ) (mr : Nat) (ex : List String)
    (hmin : 0 ≤ ms)
    (hsqpos : ∀ x : ℚ, 0 < x → 0 < F.sqrt x)
    (hsqacc : ∀ x : ℚ, 0 < x → |F.sqrt x * F.sqrt x - x| ≤ x / 10000000) :
    ∀ r ∈ baseClassify F s text wl ms mr ex,
      0 ≤ r.probability ∧ r.probability ≤ 1 + 1/1000000 := by
  intro r hr
  simp only [baseClassify] at hr
  split at hr
  · exact absurd hr (List.not_mem_nil r)
  · simp only [List.mem_map] at hr
    obtain ⟨t, ht, htr⟩ := hr
    have ht2 := mem_stableSortByDesc _ _ _ (List.mem_of_mem_take ht)
    have key := mem_foldl_step _ (fun u : Scored =>
        0 ≤ u.probability ∧ u.probability ≤ 1 + 1/1000000) _ ?hstep [] t ht2
    · rcases key with h0 | hP
      · exact absurd h0 (List.not_mem_nil t)
      · rw [← htr]
        exact hP
    case hstep =>
      intro acc tg x _ hx
      split_ifs at hx with h1 h2 h3 h4
      · exact Or.inl hx
      · rcases List.mem_append.mp hx with hxa | hxa
        · exact Or.inl hxa
        · have hx2 := List.mem_singleton.mp hxa
          subst hx2
          refine Or.inr ⟨?_, cosineSimilarity_le_bound F hsqpos hsqacc _ _⟩
          have hms := of_decide_eq_true ((Bool.and_eq_true _ _ ▸ h3).2)
          exact le_trans hmin hms
      · exact Or.inl hx
      · rcases List.mem_append.mp hx with hxa | hxa
        · exact Or.inl hxa
        · have hx2 := List.mem_singleton.mp hxa
          subst hx2
          refine Or.inr ⟨?_, cosineSimilarity_le_bound F hsqpos hsqacc _ _⟩
          have hms := of_decide_eq_true ((Bool.and_eq_true _ _ ▸ h4).2)
          have h14 : (0:ℚ) ≤ 1/4 := by norm_num
          linarith
      · exact Or.inl hx

/-- C1 witness: the hypotheses of `C1_amended_base_probability` hold at the
concrete operations `ratOps`, minimum similarity 0, and the concrete state
`zeroCentroidState`, giving the probability bounds for that call. -/
theorem C1_witness :
    (0:ℚ) ≤ 0 ∧
    ∀ r ∈ baseClassify ratOps zeroCentroidState "xx" none 0 5 [],
      0 ≤ r.probability ∧ r.probability ≤ 1 + 1/1000000 :=
  ⟨le_refl 0,
    C1_amended_base_probability ratOps zeroCentroidState "xx" none 0 5 []
      (le_refl 0) (fun _ hx => ratSqrt_pos hx) (fun _ hx => ratSqrt_sq_close hx)⟩

/-- Membership in the offending-tag list built by `import`: a tag is
dropped exactly when some stored embedding entry for it is not an array of
length 1024. -/
theorem mem_badTags_iff (dd : SnapshotData) (tag : String) :
    tag ∈ (dd.tagEmbeddings.filter (fun p => !validEmbedding p.2)).map (·.1) ↔
    ∃ v, (tag, v) ∈ dd.tagEmbeddings ∧ validEmbedding v = false := by
  constructor
  · intro h
    rcases List.mem_map.mp h with ⟨⟨t, v⟩, hmem, hd⟩
    rcases List.mem_filter.mp hmem with ⟨hmem2, hval⟩
    refine ⟨v, ?_, ?_⟩
    · simpa [← hd] using hmem2
    · simpa using hval
  · rintro ⟨v, hmem, hval⟩
    exact List.mem_map.mpr ⟨(tag, v),
      List.mem_filter.mpr ⟨hmem, by simp [hval]⟩, rfl⟩

/-- Membership in a map filtered by the offending-tag list. -/
theorem mem_dropBad_iff {γ : Type} (dd : SnapshotData) (l : List (String × γ))
    (tag : String) (c : γ) :
    (tag, c) ∈ l.filter (fun p =>
      !((dd.tagEmbeddings.filter (fun q => !validEmbedding q.2)).map
        (·.1)).contains p.1) ↔
    ((tag, c) ∈ l ∧
      ¬∃ v, (tag, v) ∈ dd.tagEmbeddings ∧ validEmbedding v = false) := by
  rw [List.mem_filter]
  have hb := mem_badTags_iff dd tag
  constructor
  · rintro ⟨hmem, hcond⟩
    refine ⟨hmem, fun hbad => ?_⟩
    have hmem2 := hb.mpr hbad
    have hcontains : ((dd.tagEmbeddings.filter (fun q => !validEmbedding q.2)).map
        (·.1)).contains tag = true := by simpa using hmem2
    rw [hcontains] at hcond
    simp at hcond
  · rintro ⟨hmem, hnbad⟩
    refine ⟨hmem, ?_⟩
    have hcontains : ((dd.tagEmbeddings.filter (fun q => !validEmbedding q.2)).map
        (·.1)).contains tag = false := by
      cases hx : ((dd.tagEmbeddings.filter (fun q => !validEmbedding q.2)).map
          (·.1)).contains tag
      · rfl
      · exact absurd (hb.mp (by simpa using hx)) hnbad
    rw [hcontains]
    rfl

/-- C8: `import(data)` throws when the payload is missing or `totalDocs` is
missing/non-numeric or negative; otherwise it does not throw, and every tag
whose stored embedding is not an array of exactly 1024 numbers has its
embedding, doc count and distinctive words removed, while all other tags
are imported; `totalDocs` is restored and the training buffer of the
importing instance is untouched. -/
theorem C8_import_validation (d : Option SnapshotData) (s : State) :
    ((d = none ∨ ∃ dd, d = some dd ∧
        (dd.totalDocs = none ∨ ∃ td, dd.totalDocs = some td ∧ td < 0)) →
      ∃ e, importData d s = Except.error e) ∧
    (∀ dd td, d = some dd → dd.totalDocs = some td → 0 ≤ td →
      ∃ s2, importData d s = Except.ok s2 ∧
        (∀ tag e, (tag, e) ∈ s2.tagEmbeddings ↔
          ((tag, some e) ∈ dd.tagEmbeddings ∧ e.length = 1024)) ∧
        (∀ tag c, (tag, c) ∈ s2.tagDocCounts ↔
          ((tag, c) ∈ dd.tagDocCounts ∧
            ¬∃ v, (tag, v) ∈ dd.tagEmbeddings ∧ validEmbedding v = false)) ∧
        (∀ tag w, (tag, w) ∈ s2.tagDistinctiveWords ↔
          ((tag, w) ∈ dd.tagDistinctiveWords ∧
            ¬∃ v, (tag, v) ∈ dd.tagEmbeddings ∧ validEmbedding v = false)) ∧
        s2.totalDocs = td ∧ s2.trainingBuffer = s.trainingBuffer) := by
  constructor
  · intro h
    rcases h with h | ⟨dd, hd, h⟩
    · subst h
      exact ⟨"Invalid classifier data", rfl⟩
    · subst hd
      rcases h with h | ⟨td, htd, hneg⟩
      · rw [importData, h]
        exact ⟨"Invalid totalDocs in classifier data", rfl⟩
      · rw [importData, htd]
        dsimp only
        rw [if_pos hneg]
        exact ⟨"Invalid totalDocs in classifier data", rfl⟩
  · intro dd td hd htd hge
    subst hd
    rw [importData, htd]
    dsimp only
    rw [if_neg (not_lt.mpr hge)]
    refine ⟨_, rfl, ?_, ?_, ?_, rfl, rfl⟩
    · intro tag e
      constructor
      · intro h
        rcases List.mem_filterMap.mp h with ⟨⟨t, v⟩, hmem, heq⟩
        cases v with
        | none => simp at heq
        | some ev =>
          dsimp only at heq
          by_cases hlen : ev.length = 1024
          · rw [if_pos hlen] at heq
            have h1 := Option.some.inj heq
            have ht : t = tag := congrArg Prod.fst h1
            have he : ev = e := congrArg Prod.snd h1
            subst ht
            subst he
            exact ⟨hmem, hlen⟩
          · rw [if_neg hlen] at heq
            simp at heq
      · rintro ⟨hmem, hlen⟩
        exact List.mem_filterMap.mpr ⟨(tag, some e), hmem, by
          dsimp only
          rw [if_pos hlen]⟩
    · intro tag c
      exact mem_dropBad_iff dd dd.tagDocCounts tag c
    · intro tag w
      exact mem_dropBad_iff dd dd.tagDistinctiveWords tag w

/-- C8 witness: importing the concrete mixed snapshot (valid tag `good`,
wrong-length `bad`, missing-array `ugly`, `totalDocs = 7`) succeeds, and the
imported state carries over the snapshot total. -/
theorem C8_witness :
    ∃ s2, importData (some mixedSnapshot) freshState = Except.ok s2 ∧
      s2.totalDocs = 7 := by
  obtain ⟨s2, hok, _, _, _, htd, _⟩ :=
    (C8_import_validation (some mixedSnapshot) freshState).2 mixedSnapshot 7
      rfl rfl (by decide)
  exact ⟨s2, hok, htd⟩

/-- C6: after `finalizeTraining` on any training corpus (trained document
by document into a fresh classifier, pathological documents such as empty
strings included), every stored tag centroid has all 1024 components, and
either all components are 0 or its L2 norm is 1 within tolerance 1e-6
(stated on the sum of squares: with the square root accurate to 1e-7
relative error, the sum of the squared components is within 1e-6 of 1,
which bounds the norm itself within 1e-6 of 1).  Components are exact
rationals in this model, so the no-NaN/no-Infinity part of the claim holds
by construction. -/
theorem C6_centroid_normalization (F : FloatOps)
    (hsqpos : ∀ x : ℚ, 0 < x → 0 < F.sqrt x)
    (hsqacc : ∀ x : ℚ, 0 < x → |F.sqrt x * F.sqrt x - x| ≤ x / 10000000)
    (docs : List (String × List String)) (tag : String) (c : Vec)
    (hmem : (tag, c) ∈
      (finalizeTraining F (trainMany freshState docs)).tagEmbeddings) :
    c.length = 1024 ∧
      (c = List.replicate 1024 (0 : ℚ) ∨ |sumsq c - 1| ≤ 1/1000000) := by
  rw [finalizeTraining_tagEmbeddings] at hmem
  obtain ⟨p, hp, hfp⟩ := List.mem_map.mp hmem
  have hinit : centroidAccInv
      ((trainMany freshState docs).tagEmbeddings,
        (trainMany freshState docs).tagDocCounts) := by
    refine ⟨fun q hq => ?_, fun q hq => ?_⟩ <;>
    · have hq2 : q ∈ (trainMany freshState docs).tagEmbeddings := hq
      rw [trainMany_tagEmbeddings docs freshState] at hq2
      exact absurd hq2 (List.not_mem_nil q)
  have hInv : centroidAccInv
      ((trainMany freshState docs).trainingBuffer.foldl
        (finalizeDocStep F (trainMany freshState docs))
        ((trainMany freshState docs).tagEmbeddings,
          (trainMany freshState docs).tagDocCounts)) :=
    foldl_preserves centroidAccInv _
      (finalizeDocStep_inv F (trainMany freshState docs)) _ _ hinit
  obtain ⟨c2, hfc, hclen, hcprop⟩ :=
    finalizeNorm_spec F hsqpos hsqacc _ p (hInv.1 p hp) (hInv.2 p hp)
  rw [hfc] at hfp
  have hc : c2 = c := congrArg Prod.snd hfp
  rw [← hc]
  exact ⟨hclen, hcprop⟩

set_option maxRecDepth 1000000 in
attribute [local semireducible] Rat.add Rat.mul Rat.inv Rat.sub Rat.ofScientific in
/-- C6 witness: the hypotheses of `C6_centroid_normalization` hold at the
concrete operations `ratOps` and the one-document corpus whose only text is
the empty string (a pathological document), whose finalized centroid is the
all-zero vector. -/
theorem C6_witness :
    (∀ x : ℚ, 0 < x → 0 < ratOps.sqrt x) ∧
    (∀ x : ℚ, 0 < x → |ratOps.sqrt x * ratOps.sqrt x - x| ≤ x / 10000000) ∧
    ("t", List.replicate 1024 (0:ℚ)) ∈
      (finalizeTraining ratOps
        (trainMany freshState [("", ["t"])])).tagEmbeddings ∧
    ((List.replicate 1024 (0:ℚ)).length = 1024 ∧
      (List.replicate 1024 (0:ℚ) = List.replicate 1024 (0:ℚ) ∨
        |sumsq (List.replicate 1024 (0:ℚ)) - 1| ≤ 1/1000000)) := by
  have hmem : ("t", List.replicate 1024 (0:ℚ)) ∈
      (finalizeTraining ratOps
        (trainMany freshState [("", ["t"])])).tagEmbeddings := by
    decide
  exact ⟨fun x hx => ratSqrt_pos hx, fun x hx => ratSqrt_sq_close hx, hmem,
    C6_centroid_normalization ratOps (fun x hx => ratSqrt_pos hx)
      (fun x hx => ratSqrt_sq_close hx) [("", ["t"])] "t" _ hmem⟩

/-- C2 (amended): for a non-empty whitelist, every tag returned by the base
`classify` is in the whitelist; the advanced `classify` can additionally
return hierarchy-injected children of the existing tags (see
`C2_counterexample`), so each of its returned tags is either in the
whitelist or a recorded hierarchy child of some existing tag. -/
theorem C2_amended_whitelist (F : FloatOps) (s : State) (a : AdvState)
    (text : String) (wl : List String) (ms : ℚ) (mr : Nat)
    (ex : List String) (hwl : wl ≠ []) :
    (∀ r ∈ baseClassify F s text (some wl) ms mr ex, r.tag ∈ wl) ∧
    (∀ r ∈ advClassify F a text (some wl) ms mr ex,
      r.tag ∈ wl ∨ ∃ et ∈ ex, ∃ ch,
        alGet a.tagChildren (strToLower et) = some ch ∧ r.tag ∈ ch) := by
  constructor
  · intro r hr
    simp only [baseClassify] at hr
    split at hr
    · exact absurd hr (List.not_mem_nil r)
    · obtain ⟨t, ht, htr⟩ := List.mem_map.mp hr
      have ht2 := mem_stableSortByDesc _ _ _ (List.mem_of_mem_take ht)
      have key := mem_foldl_step_sub _ (fun u : Scored => u.tag ∈ wl) wl
        ?hstepb _
        (fun t2 ht2m => candidateTags_subset s.tagEmbeddings wl hwl t2 ht2m)
        [] t ht2
      · rcases key with h0 | hP
        · exact absurd h0 (List.not_mem_nil t)
        · rw [← htr]
          exact hP
      case hstepb =>
        intro acc tg x htg hx
        split_ifs at hx with h1 h2 h3 h4
        · exact Or.inl hx
        · rcases List.mem_append.mp hx with hxa | hxa
          · exact Or.inl hxa
          · have hx2 := List.mem_singleton.mp hxa
            subst hx2
            exact Or.inr htg
        · exact Or.inl hx
        · rcases List.mem_append.mp hx with hxa | hxa
          · exact Or.inl hxa
          · have hx2 := List.mem_singleton.mp hxa
            subst hx2
            exact Or.inr htg
        · exact Or.inl hx
  · intro r hr
    simp only [advClassify] at hr
    split at hr
    · exact absurd hr (List.not_mem_nil r)
    · split at hr
      · exact absurd hr (List.not_mem_nil r)
      · have hr1 := List.mem_of_mem_take hr
        obtain ⟨r1, hr1mem, hrtag⟩ := adjustWithFeedback_tag a _ r hr1
        rcases mem_enhanceWithHierarchy a _ ex r1 hr1mem with
          ⟨r0, hr0, htag0⟩ | ⟨et, h_et, ch, hch, htagc⟩
        · left
          obtain ⟨t, ht, htf⟩ := List.mem_map.mp hr0
          have ht2 := mem_stableSortByDesc _ _ _ (List.mem_of_mem_take ht)
          have key := mem_foldl_step_sub _ (fun u : Scored => u.tag ∈ wl) wl
            ?hstepa _
            (fun t2 ht2m =>
              candidateTags_subset a.base.tagEmbeddings wl hwl t2 ht2m)
            [] t ht2
          · rcases key with h0 | hP
            · exact absurd h0 (List.not_mem_nil t)
            · rw [hrtag, htag0, ← htf]
              exact hP
          case hstepa =>
            intro acc tg x htg hx
            split_ifs at hx with h1 h2
            · exact Or.inl hx
            · rcases List.mem_append.mp hx with hxa | hxa
              · exact Or.inl hxa
              · have hx2 := List.mem_singleton.mp hxa
                subst hx2
                exact Or.inr htg
            · exact Or.inl hx
        · right
          exact ⟨et, h_et, ch, hch, by rw [hrtag]; exact htagc⟩

/-- C2 witness: the whitelist `[python]` is non-empty, and the conclusion of
`C2_amended_whitelist` holds for a concrete base call on the zero-centroid
state and a concrete advanced call on the trained `wlState`. -/
theorem C2_witness :
    (["python"] : List String) ≠ [] ∧
    ((∀ r ∈ baseClassify ratOps zeroCentroidState "stone" (some ["python"])
        0 5 ["python"], r.tag ∈ (["python"] : List String)) ∧
     (∀ r ∈ advClassify ratOps wlState "stone" (some ["python"]) 0 5
        ["python"],
       r.tag ∈ (["python"] : List String) ∨
         ∃ et ∈ (["python"] : List String), ∃ ch,
           alGet wlState.tagChildren (strToLower et) = some ch ∧
             r.tag ∈ ch)) :=
  ⟨by decide,
    C2_amended_whitelist ratOps zeroCentroidState wlState "stone" ["python"]
      0 5 ["python"] (by decide)⟩

/-- C4: for a classifier trained on any corpus and finalized (base or
advanced), importing its own export succeeds and yields a classifier whose
`classify` output equals the original's on every argument tuple; the
training buffer of the importing instance is the only surviving difference
and `classify` never reads it. -/
theorem C4_export_import_roundtrip (F : FloatOps)
    (docs : List (String × List String)) (s2 : State) (a2 : AdvState)
    (text : String) (wl : Option (List String)) (ms : ℚ) (mr : Nat)
    (ex : List String) :
    (importData (some (exportData (finalizeTraining F
        (trainMany freshState docs)))) s2).map
      (fun s3 => baseClassify F s3 text wl ms mr ex) =
      Except.ok (baseClassify F
        (finalizeTraining F (trainMany freshState docs)) text wl ms mr ex) ∧
    (advImport (some (advExport (advFinalize F
        (advTrainMany freshAdvState docs)))) a2).map
      (fun a3 => advClassify F a3 text wl ms mr ex) =
      Except.ok (advClassify F
        (advFinalize F (advTrainMany freshAdvState docs))
        text wl ms mr ex) := by
  have hlen := finalized_fresh_emb_length F docs
  have htd : ¬ (finalizeTraining F (trainMany freshState docs)).totalDocs
      < 0 := by
    have h1 : (finalizeTraining F (trainMany freshState docs)).totalDocs =
        (trainMany freshState docs).totalDocs := rfl
    rw [h1]
    exact not_lt.mpr (trainMany_totalDocs_nonneg docs freshState (le_refl 0))
  have hdfp : ∀ p ∈ (finalizeTraining F
      (trainMany freshState docs)).docFrequency, 0 < (p : String × ℚ).2 := by
    have h1 : (finalizeTraining F (trainMany freshState docs)).docFrequency =
        (trainMany freshState docs).docFrequency := rfl
    rw [h1]
    exact trainMany_df_pos docs freshState
      (fun p hp => absurd hp (List.not_mem_nil p))
  have hdfn : (alKeys (finalizeTraining F
      (trainMany freshState docs)).docFrequency).Nodup := by
    have h1 : (finalizeTraining F (trainMany freshState docs)).docFrequency =
        (trainMany freshState docs).docFrequency := rfl
    rw [h1]
    exact trainMany_df_nodup docs freshState List.nodup_nil
  constructor
  · rw [importData_exportData _ s2 hlen htd hdfp hdfn]
    dsimp only [Except.map]
    exact congrArg Except.ok
      (baseClassify_ignores_buffer F _ s2.trainingBuffer text wl ms mr ex)
  · have hab : (advTrainMany freshAdvState docs).base =
        trainMany freshState docs :=
      (advTrainMany_base docs freshAdvState).trans rfl
    have hbase : (advFinalize F (advTrainMany freshAdvState docs)).base =
        finalizeTraining F (trainMany freshState docs) := by
      have h1 : (advFinalize F (advTrainMany freshAdvState docs)).base =
          finalizeTraining F (advTrainMany freshAdvState docs).base := rfl
      rw [h1, hab]
    have hreb : rebuildChildren
        (advFinalize F (advTrainMany freshAdvState docs)).tagHierarchy =
        (advFinalize F (advTrainMany freshAdvState docs)).tagChildren := by
      refine rebuildChildren_buildTagHierarchy
        { advTrainMany freshAdvState docs with
          base := finalizeTraining F (advTrainMany freshAdvState docs).base }
        ?_
      show (alKeys (finalizeTraining F
        (advTrainMany freshAdvState docs).base).tagEmbeddings).Nodup
      rw [hab]
      exact finalized_fresh_keys_nodup F docs
    rw [advImport]
    have hdb : (advExport (advFinalize F
        (advTrainMany freshAdvState docs))).base =
        exportData (advFinalize F (advTrainMany freshAdvState docs)).base :=
      rfl
    rw [hdb, hbase]
    rw [importData_exportData _ a2.base hlen htd hdfp hdfn]
    dsimp only
    have hth : (advExport (advFinalize F
        (advTrainMany freshAdvState docs))).tagHierarchy =
        some (advFinalize F (advTrainMany freshAdvState docs)).tagHierarchy :=
      rfl
    have huf : (advExport (advFinalize F
        (advTrainMany freshAdvState docs))).userFeedback =
        some (advFinalize F (advTrainMany freshAdvState docs)).userFeedback :=
      rfl
    rw [hth, huf]
    dsimp only
    dsimp only [Except.map]
    refine congrArg Except.ok ?_
    rw [hreb]
    rw [← hbase]
    exact advClassify_ignores F
      (advFinalize F (advTrainMany freshAdvState docs))
      a2.base.trainingBuffer _ text wl ms mr ex

set_option maxRecDepth 1000000 in
attribute [local semireducible] Rat.add Rat.mul Rat.inv Rat.sub Rat.ofScientific in
/-- C5 witness: a concrete suggestion of a concrete base classify call,
with its lexical overlap bounded through `C5_overlap_floor`. -/
theorem C5_witness :
    ({ tag := "bad", probability := 0 } : Suggestion) ∈
      baseClassify ratOps zeroCentroidState "xx" none 0 5 [] ∧
    2/5 ≤ lexOverlap zeroCentroidState "xx" "bad" := by
  have hmem : ({ tag := "bad", probability := 0 } : Suggestion) ∈
      baseClassify ratOps zeroCentroidState "xx" none 0 5 [] := by decide
  exact ⟨hmem, C5_overlap_floor ratOps zeroCentroidState "xx" none 0 5 []
    { tag := "bad", probability := 0 } hmem⟩

end TagClassifier
